import Mathlib

set_option maxRecDepth 20000

namespace VisaApp

/- Shallow embedding of the proper-noun-safe translation pipeline of the
   API route (the `POST /api/translate` handler and its helpers).
   JavaScript strings are modelled as `List Char` (Unicode code points;
   the texts of interest are BMP text, where UTF-16 length and
   code-point length agree).  `String.prototype.replaceAll` (literal
   pattern), `includes`, `trim`, the segmentation regex split and the
   insertion-order iteration of plain objects and of `Map` are modelled
   explicitly below.  External effects (the filesystem read of
   `data/glossary.json`, the per-sentence OpenAI calls) are passed as
   explicit parameters. -/

/-- Characters the segmentation regex `[。！？\n]+` treats as sentence
boundaries. -/
def isBoundaryCh (c : Char) : Bool :=
  c = '。' || c = '！' || c = '？' || c = '\n'

/-- Characters of the pure-punctuation test `^[。！？]+$` used by the
merge loop of `splitIntoSentences`. -/
def isTermPunct (c : Char) : Bool :=
  c = '。' || c = '！' || c = '？'

/-- Modelled whitespace set for JavaScript `trim` (the common subset:
space, newline, tab, carriage return, ideographic space). -/
def isWsCh (c : Char) : Bool :=
  c = ' ' || c = '\n' || c = '\t' || c = '\r' || c = '　'

/-- Han-script range of the heuristic regex `[一-龯]{2,}`. -/
def isKanji (c : Char) : Bool :=
  0x4e00 ≤ c.toNat && c.toNat ≤ 0x9faf

/-- Characters that can appear in a placeholder token `__PN_<n>__`. -/
def phAlpha (c : Char) : Bool :=
  c = '_' || c = 'P' || c = 'N' || ('0' ≤ c && c ≤ '9')

/-- Decimal digit character (argument taken modulo the range, only used
below ten). -/
def digitChar : Nat → Char
  | 0 => '0' | 1 => '1' | 2 => '2' | 3 => '3' | 4 => '4'
  | 5 => '5' | 6 => '6' | 7 => '7' | 8 => '8' | _ => '9'

/-- Fuel-driven decimal rendering (most significant digit first). -/
def toDecGo : Nat → Nat → List Char → List Char
  | 0, n, acc => digitChar (n % 10) :: acc
  | f + 1, n, acc =>
    if n < 10 then digitChar n :: acc
    else toDecGo f (n / 10) (digitChar (n % 10) :: acc)

/-- Decimal rendering of `n`, as produced by the template literal. -/
def toDec (n : Nat) : List Char := toDecGo n n []

/-- The placeholder minted for index `i`: the token `__PN_<i>__`. -/
def phName (i : Nat) : List Char :=
  "__PN_".toList ++ toDec i ++ "__".toList

/-- Propositional form: `p` is a prefix of `s`. -/
def begins (p s : List Char) : Prop := ∃ t, s = p ++ t

/-- Propositional form: `pat` occurs as a contiguous substring of `s`. -/
def Occurs (pat s : List Char) : Prop := ∃ u v, s = u ++ pat ++ v

/-- Model of JavaScript `String.prototype.includes` (in particular the
empty pattern is found everywhere). -/
def occursIn (pat : List Char) : List Char → Bool
  | [] => pat.isEmpty
  | c :: rest => pat.isPrefixOf (c :: rest) || occursIn pat rest

/-- One left-to-right, non-overlapping replacement pass with explicit
fuel (adequate whenever the fuel is at least the length of the text). -/
def replGo (pat rep : List Char) : Nat → List Char → List Char
  | _, [] => []
  | 0, s => s
  | f + 1, c :: rest =>
    if !pat.isEmpty && pat.isPrefixOf (c :: rest) then
      rep ++ replGo pat rep f ((c :: rest).drop pat.length)
    else c :: replGo pat rep f rest

/-- Replacement of every occurrence of a nonempty pattern, leftmost
first, non-overlapping. -/
def replaceAllPos (pat rep s : List Char) : List Char :=
  replGo pat rep s.length s

/-- JavaScript behaviour of `replaceAll` with the empty pattern: the
replacement is inserted before every character and at the end. -/
def emptyPatRepl (rep : List Char) : List Char → List Char
  | [] => rep
  | c :: rest => rep ++ c :: emptyPatRepl rep rest

/-- Model of JavaScript `String.prototype.replaceAll` with a literal
pattern. -/
def replaceAll (pat rep s : List Char) : List Char :=
  if pat.isEmpty then emptyPatRepl rep s else replaceAllPos pat rep s

/-- Left trim over the modelled whitespace set. -/
def trimL (s : List Char) : List Char := s.dropWhile isWsCh

/-- Model of JavaScript `String.prototype.trim`. -/
def trim (s : List Char) : List Char :=
  ((trimL s).reverse.dropWhile isWsCh).reverse

/-- Fuel-driven grouping of a string into maximal runs of characters
with equal `p`-value. -/
def chunkGo (p : Char → Bool) : Nat → List Char → List (List Char)
  | _, [] => []
  | 0, s => [s]
  | f + 1, c :: rest =>
    (c :: rest.takeWhile (fun d => p d == p c)) ::
      chunkGo p f (rest.dropWhile (fun d => p d == p c))

/-- Maximal runs of characters with equal `p`-value.  With
`p = isBoundaryCh` this yields exactly the nonempty pieces produced by
`split(/([。！？\n]+)/)`; with `p = isKanji` the kanji runs matched by
`[一-龯]{2,}` (before the length filter). -/
def chunkBy (p : Char → Bool) (s : List Char) : List (List Char) :=
  chunkGo p s.length s

/-- The test `/^[。！？]+$/.test(frag)` of the merge loop. -/
def isPunctRun (f : List Char) : Bool := !f.isEmpty && f.all isTermPunct

/-- Append a punctuation run to the last accumulated sentence
(`result[result.length - 1] += sentences[i]`); with an empty
accumulator the run is dropped. -/
def addPunct : List (List Char) → List Char → List (List Char)
  | [], _ => []
  | [x], f => [x ++ f]
  | x :: xs, f => x :: addPunct xs f

/-- The re-merge loop of `splitIntoSentences`. -/
def mergeFrags : List (List Char) → List (List Char) → List (List Char)
  | acc, [] => acc
  | acc, f :: rest =>
    if isPunctRun f then mergeFrags (addPunct acc f) rest
    else mergeFrags (acc ++ [f]) rest

/-- Model of `splitIntoSentences` from the source: split on runs of
`。！？\n` keeping the separators, drop fragments that trim to empty,
trim the rest, re-attach pure-punctuation fragments to the preceding
sentence (dropping leading ones), and finally drop empties. -/
def splitIntoSentences (text : List Char) : List (List Char) :=
  let frags :=
    ((chunkBy isBoundaryCh text).filter (fun s => !(trim s).isEmpty)).map trim
  (mergeFrags [] frags).filter (fun s => !s.isEmpty)

/-- Entry of `glossary.json`: the verified English rendering and a
confidence tag (the latter is never read by the pipeline). -/
structure GlossaryEntry where
  en : List Char
  confidence : List Char
deriving DecidableEq, Repr

/-- Model of the parsed `glossary.json`: categories in object-iteration
(insertion) order, each category a list of (japanese, entry) pairs in
insertion order. -/
abbrev Glossary := List (List Char × List (List Char × GlossaryEntry))

/-- Mutable state threaded through the two nested loops of
`protectProperNouns`: the current text, the placeholder map (insertion
order), the found proper nouns, and the next placeholder index. -/
structure PState where
  text : List Char
  pmap : List (List Char × List Char)
  found : List (List Char)
  idx : Nat
deriving DecidableEq, Repr

/-- Body of the inner loop of `protectProperNouns`: if the term occurs
in the current text, replace all its occurrences with a fresh
placeholder and record the mapping and the term. -/
def protectEntry (st : PState) (jp : List Char) (e : GlossaryEntry) : PState :=
  if occursIn jp st.text then
    { text := replaceAll jp (phName st.idx) st.text
      pmap := st.pmap ++ [(phName st.idx, e.en)]
      found := st.found ++ [jp]
      idx := st.idx + 1 }
  else st

/-- One category of the outer loop of `protectProperNouns`. -/
def protectCat (st : PState) (cat : List (List Char × GlossaryEntry)) : PState :=
  cat.foldl (fun s pr => protectEntry s pr.1 pr.2) st

/-- Result record of `protectProperNouns`. -/
structure ProtectResult where
  protectedText : List Char
  pmap : List (List Char × List Char)
  found : List (List Char)
deriving DecidableEq, Repr

/-- Model of `protectProperNouns` from the source. -/
def protectProperNouns (text : List Char) (g : Glossary) : ProtectResult :=
  let st := g.foldl (fun s c => protectCat s c.2) ⟨text, [], [], 0⟩
  ⟨st.text, st.pmap, st.found⟩

/-- The matches of `[一-龯]{2,}` over the text: maximal kanji
runs of length at least two. -/
def kanjiRuns (text : List Char) : List (List Char) :=
  (chunkBy isKanji text).filter (fun r => r.all isKanji && decide (2 ≤ r.length))

/-- All japanese keys of the glossary (the `knownNouns` set, in
insertion order; only membership is ever used). -/
def glossaryKeys (g : Glossary) : List (List Char) :=
  (g.map (fun c => c.2.map Prod.fst)).flatten

/-- Model of `detectUnknownProperNouns` from the source. -/
def detectUnknownProperNouns (text : List Char) (g : Glossary) :
    List (List Char) :=
  let known := glossaryKeys g
  (kanjiRuns text).filter (fun m =>
    !known.contains m &&
      !(known.any (fun k => occursIn m k || occursIn k m)))

/-- Outcome of one OpenAI chat call as observed by `translateSentence`:
`err` is any thrown error (capability error, missing content, JSON
parse failure); `ok t?` is a parsed JSON object whose `translated`
field is `t?` (`none` models a missing field; the code additionally
treats the empty string as missing through `result.translated ||
sentence`). -/
inductive LlmResult where
  | err : LlmResult
  | ok : Option (List Char) → LlmResult
deriving DecidableEq, Repr

/-- Model of `translateSentence` from the source: total, returning the
input sentence unchanged on every failure path. -/
def translateSentence (sentence : List Char) (r : LlmResult) : List Char :=
  match r with
  | .err => sentence
  | .ok none => sentence
  | .ok (some t) => if t.isEmpty then sentence else t

/-- Model of `restoreProperNouns` from the source: replace each
placeholder of the map, in insertion order, by its English rendering. -/
def restoreProperNouns (translatedText : List Char)
    (m : List (List Char × List Char)) : List Char :=
  m.foldl (fun acc pr => replaceAll pr.1 pr.2 acc) translatedText

/-- Risk levels of the response. -/
inductive Risk where
  | GREEN : Risk
  | YELLOW : Risk
  | RED : Risk
deriving DecidableEq, Repr

/-- The person-name heuristic of step 7: character length between two
and four. -/
def isNameShaped (n : List Char) : Bool :=
  decide (2 ≤ n.length) && decide (n.length ≤ 4)

/-- The `join(', ')` of the warning templates. -/
def joinComma (l : List (List Char)) : List Char :=
  List.intercalate ", ".toList l

/-- The RED warning string of step 7. -/
def redWarning (l : List (List Char)) : List Char :=
  "該当する固有名詞が、ナレッジベースに登録されていない状態です。: ".toList ++
    joinComma l ++ ". ".toList ++ "</br></br>".toList ++
    "ビザ申請の提出前に、パスポート記載の綴りに誤りがないかご確認ください。".toList

/-- The YELLOW warning string of step 7. -/
def yellowWarning (l : List (List Char)) : List Char :=
  "Some proper nouns not found in knowledge base: ".toList ++
    joinComma l ++ ". Please verify translations.".toList

/-- Step 7 of the `POST` handler: risk level and warnings from the
unverified proper-noun candidates. -/
def classifyRisk (unknown : List (List Char)) : Risk × List (List Char) :=
  if unknown.isEmpty then (.GREEN, [])
  else if unknown.any isNameShaped then (.RED, [redWarning unknown])
  else (.YELLOW, [yellowWarning unknown])

/-- Model of `loadGlossary` from the source, with the module-level
cache variable and the filesystem passed explicitly: `cache` is the
current value of `glossaryCache`, `disk` the outcome of reading and
parsing `data/glossary.json` (`error` means missing or malformed, which
the code catches).  Returns the glossary handed to the pipeline and the
new value of the cache variable. -/
def loadGlossary (cache : Option Glossary) (disk : Except Unit Glossary) :
    Glossary × Option Glossary :=
  match cache with
  | some g => (g, some g)
  | none =>
    match disk with
    | .ok g => (g, some g)
    | .error _ => ([], none)

/-- The `Promise.all` fan-out of step 4: the i-th sentence is translated
with the i-th call outcome, order restored by index. -/
def translateAll (f : Nat → LlmResult) : Nat → List (List Char) → List (List Char)
  | _, [] => []
  | i, s :: rest => translateSentence s (f i) :: translateAll f (i + 1) rest

/-- The response `sentences` array: `originalSentences.map((original, i)
=> ...)`, reading `sentenceTranslations[i]`.  The guard on the lengths
is applied by `POST` below; past the translations array the real code
throws. -/
def buildRows (m : List (List Char × List Char)) :
    List (List Char) → List (List Char) → List (List Char × List Char)
  | [], _ => []
  | _ :: _, [] => []
  | o :: os, t :: ts => (o, restoreProperNouns t m) :: buildRows m os ts

/-- The 200-response body. -/
structure ApiResponse where
  outputText : List Char
  riskLevel : Risk
  warnings : List (List Char)
  appliedGlossary : List (List Char)
  sentences : List (List Char × List Char)
deriving DecidableEq, Repr

/-- Observable outcome of one request: 400, 500, or a 200 body. -/
inductive ApiResult where
  | badRequest : ApiResult
  | internalError : ApiResult
  | ok : ApiResponse → ApiResult
deriving DecidableEq, Repr

/-- Model of the `POST` handler pipeline from the source.  An empty
`text` is rejected up front (`!text` is truthy for the empty string).
`f i` is the outcome of the i-th concurrent OpenAI call.  When the
original segmentation is longer than the translations array, reading
`sentenceTranslations[i].translated` throws and the outer catch returns
the generic 500, modelled as `internalError`. -/
def POST (text : List Char) (g : Glossary) (f : Nat → LlmResult) : ApiResult :=
  if text.isEmpty then .badRequest
  else
    let pr := protectProperNouns text g
    let unknown := detectUnknownProperNouns text g
    let origS := splitIntoSentences text
    let protS := splitIntoSentences pr.protectedText
    let trs := translateAll f 0 protS
    let combined := List.intercalate [' '] trs
    let outputText := restoreProperNouns combined pr.pmap
    let rw := classifyRisk unknown
    if origS.length ≤ trs.length then
      .ok { outputText := outputText, riskLevel := rw.1, warnings := rw.2,
            appliedGlossary := pr.found, sentences := buildRows pr.pmap origS trs }
    else .internalError

/-- The `p`-value of a run (value of `p` at the head character). -/
def runVal (p : Char → Bool) (g : List Char) : Bool := p (g.headD ' ')

/-- Well-formed run decomposition: every run nonempty and homogeneous,
adjacent runs of opposite `p`-value. -/
inductive ChunksOk (p : Char → Bool) : List (List Char) → Prop where
  | nil : ChunksOk p []
  | cons (g : List Char) (gs : List (List Char)) (hne : g ≠ [])
      (hhom : ∀ c ∈ g, p c = runVal p g)
      (halt : gs = [] ∨ runVal p (gs.headD []) = !runVal p g)
      (htail : ChunksOk p gs) : ChunksOk p (g :: gs)

/-- Transformation of a single run under one replacement pass:
boundary runs are untouched, other runs are rewritten. -/
def runTr (pat rep : List Char) (g : List Char) : List Char :=
  if runVal isBoundaryCh g then g else replaceAllPos pat rep g

/-- Apply a sequence of (pattern, replacement) substitutions in order,
exactly as the protect loop rewrites the text. -/
def applyScript (sc : List (List Char × List Char)) (b : List Char) : List Char :=
  sc.foldl (fun x pr => replaceAll pr.1 pr.2 x) b

/-- The substitution script recorded by a run of the protect loop: the
k-th found term paired with its minted placeholder, indices from `k`. -/
def scriptFrom : Nat → List (List Char) → List (List Char × List Char)
  | _, [] => []
  | k, jp :: rest => (jp, phName k) :: scriptFrom (k + 1) rest

/-- The substitution script actually performed by
`protectProperNouns t g`. -/
def protectScript (t : List Char) (g : Glossary) : List (List Char × List Char) :=
  scriptFrom 0 (protectProperNouns t g).found

/-- Well-formedness of a substitution script: every pattern is free of
boundary characters and contains a non-whitespace character, and every
replacement is a placeholder. -/
def ScriptOk (sc : List (List Char × List Char)) : Prop :=
  ∀ pr ∈ sc, (∀ c ∈ pr.1, isBoundaryCh c = false) ∧
    (∃ c ∈ pr.1, isWsCh c = false) ∧ (∃ i : Nat, pr.2 = phName i)

section StringLemmas

theorem begins_iff (pt s : List Char) :
    pt.isPrefixOf s = true ↔ begins pt s := by
  induction pt generalizing s with
  | nil =>
    constructor
    · intro _; exact ⟨s, rfl⟩
    · intro _; cases s <;> simp [List.isPrefixOf]
  | cons a as ih =>
    cases s with
    | nil =>
      constructor
      · intro h; simp [List.isPrefixOf] at h
      · rintro ⟨t, ht⟩; simp at ht
    | cons b bs =>
      constructor
      · intro h
        simp only [List.isPrefixOf, Bool.and_eq_true, beq_iff_eq] at h
        obtain ⟨rfl, h2⟩ := h
        obtain ⟨t, rfl⟩ := (ih bs).1 h2
        exact ⟨t, rfl⟩
      · rintro ⟨t, ht⟩
        rw [List.cons_append] at ht
        injection ht with h1 h2
        simp only [List.isPrefixOf, Bool.and_eq_true, beq_iff_eq]
        exact ⟨h1.symm, (ih bs).2 ⟨t, h2⟩⟩

theorem occurs_nil_pat (s : List Char) : Occurs [] s := ⟨[], s, rfl⟩

theorem occurs_cons_iff (pt : List Char) (c : Char) (l : List Char) :
    Occurs pt (c :: l) ↔ begins pt (c :: l) ∨ Occurs pt l := by
  constructor
  · rintro ⟨u, v, h⟩
    cases u with
    | nil => exact Or.inl ⟨v, by simpa using h⟩
    | cons x u' =>
      right
      rw [List.cons_append] at h
      injection h with h1 h2
      exact ⟨u', v, h2⟩
  · rintro (⟨t, ht⟩ | ⟨u, v, hv⟩)
    · exact ⟨[], t, by simpa using ht⟩
    · subst hv
      exact ⟨c :: u, v, rfl⟩

theorem occursIn_iff (pt s : List Char) :
    occursIn pt s = true ↔ Occurs pt s := by
  induction s with
  | nil =>
    simp only [occursIn, List.isEmpty_iff]
    constructor
    · rintro rfl; exact occurs_nil_pat []
    · rintro ⟨u, v, h⟩
      rcases List.append_eq_nil.mp h.symm with ⟨h1, h2⟩
      exact (List.append_eq_nil.mp h1).2
  | cons c l ih =>
    simp only [occursIn, Bool.or_eq_true, begins_iff, ih, occurs_cons_iff]

theorem occurs_chars {pt s : List Char} (h : Occurs pt s) :
    ∀ c ∈ pt, c ∈ s := by
  rintro c hc
  obtain ⟨u, v, rfl⟩ := h
  exact List.mem_append.mpr (Or.inl (List.mem_append.mpr (Or.inr hc)))

theorem begins_append_right {pt a : List Char} (w : List Char)
    (h : begins pt a) : begins pt (a ++ w) := by
  obtain ⟨t, rfl⟩ := h
  exact ⟨t ++ w, by simp⟩

theorem begins_of_begins_append {pt a w : List Char}
    (h : begins pt (a ++ w)) (hl : pt.length ≤ a.length) : begins pt a := by
  obtain ⟨t, ht⟩ := h
  have h1 : a.take pt.length = pt := by
    have h2 := congrArg (List.take pt.length) ht
    rwa [List.take_append_of_le_length hl, List.take_left] at h2
  refine ⟨a.drop pt.length, ?_⟩
  conv_lhs => rw [← List.take_append_drop pt.length a, h1]

theorem begins_split_long {pt a w : List Char}
    (h : begins pt (a ++ w)) (hl : a.length < pt.length) :
    ∃ e, pt = a ++ e ∧ e ≠ [] ∧ begins e w := by
  obtain ⟨t, ht⟩ := h
  have h1 : pt.take a.length = a := by
    have h2 := congrArg (List.take a.length) ht.symm
    rwa [List.take_append_of_le_length (le_of_lt hl), List.take_left] at h2
  have hsplit : pt = a ++ pt.drop a.length := by
    conv_lhs => rw [← List.take_append_drop a.length pt, h1]
  refine ⟨pt.drop a.length, hsplit, ?_, ?_⟩
  · intro he
    have h3 := congrArg List.length he
    simp at h3
    omega
  · refine ⟨t, ?_⟩
    have h2 : pt ++ t = a ++ w := ht.symm
    rw [hsplit, List.append_assoc] at h2
    exact (List.append_cancel_left h2).symm

theorem occurs_append_left {q w : List Char} (x : List Char)
    (h : Occurs q w) : Occurs q (x ++ w) := by
  obtain ⟨u, v, rfl⟩ := h
  exact ⟨x ++ u, v, by simp⟩

theorem occurs_append_right {q w : List Char} (x : List Char)
    (h : Occurs q w) : Occurs q (w ++ x) := by
  obtain ⟨u, v, rfl⟩ := h
  exact ⟨u, v ++ x, by simp⟩

theorem occurs_of_drop {q s : List Char} {n : Nat}
    (h : Occurs q (s.drop n)) : Occurs q s := by
  have := occurs_append_left (s.take n) h
  rwa [List.take_append_drop] at this

theorem occurs_of_begins {q s : List Char} (h : begins q s) : Occurs q s := by
  obtain ⟨t, rfl⟩ := h
  exact ⟨[], t, rfl⟩

/-- Splitting lemma: an occurrence of a nonempty `q` cannot lie inside
an appended block none of whose characters belongs to `q`. -/
theorem occurs_of_occurs_append {q A B : List Char}
    (h : Occurs q (A ++ B)) (hq : q ≠ []) (hA : ∀ a ∈ A, a ∉ q) :
    Occurs q B := by
  induction A with
  | nil => simpa using h
  | cons a A' ih =>
    rw [List.cons_append, occurs_cons_iff] at h
    rcases h with hb | ho
    · obtain ⟨t, ht⟩ := hb
      cases q with
      | nil => exact absurd rfl hq
      | cons qc qt =>
        rw [List.cons_append] at ht
        injection ht with h1 _
        have haq : a ∈ qc :: qt := by rw [h1]; exact List.mem_cons_self _ _
        exact absurd haq (hA a (List.mem_cons_self _ _))
    · exact ih ho (fun x hx => hA x (List.mem_cons_of_mem a hx))

end StringLemmas

section ReplLemmas

theorem replGo_nil (pat rep : List Char) (f : Nat) :
    replGo pat rep f [] = [] := by
  cases f <;> rfl

theorem replGo_succ (pat rep : List Char) (f : Nat) (c : Char) (rest : List Char) :
    replGo pat rep (f + 1) (c :: rest) =
      if !pat.isEmpty && pat.isPrefixOf (c :: rest) then
        rep ++ replGo pat rep f ((c :: rest).drop pat.length)
      else c :: replGo pat rep f rest := rfl

theorem pat_length_pos_of_cond {pat : List Char} {s : List Char}
    (hc : (!pat.isEmpty && pat.isPrefixOf s) = true) : 1 ≤ pat.length := by
  rcases pat with _ | ⟨x, xs⟩
  · simp at hc
  · simp

theorem replGo_congr (pat rep : List Char) :
    ∀ f₁ : Nat, ∀ f₂ : Nat, ∀ s : List Char, s.length ≤ f₁ → s.length ≤ f₂ →
      replGo pat rep f₁ s = replGo pat rep f₂ s := by
  intro f₁
  induction f₁ with
  | zero =>
    intro f₂ s h1 _
    have hs : s = [] := List.length_eq_zero.mp (Nat.le_zero.mp h1)
    subst hs
    rw [replGo_nil, replGo_nil]
  | succ f ih =>
    intro f₂ s h1 h2
    cases s with
    | nil => rw [replGo_nil, replGo_nil]
    | cons c rest =>
      cases f₂ with
      | zero => simp at h2
      | succ f' =>
        rw [replGo_succ, replGo_succ]
        by_cases hc : (!pat.isEmpty && pat.isPrefixOf (c :: rest)) = true
        · have hpl : 1 ≤ pat.length := pat_length_pos_of_cond hc
          have hdl : ((c :: rest).drop pat.length).length ≤ f := by
            simp only [List.length_drop, List.length_cons]
            simp only [List.length_cons] at h1
            omega
          have hdl' : ((c :: rest).drop pat.length).length ≤ f' := by
            simp only [List.length_drop, List.length_cons]
            simp only [List.length_cons] at h2
            omega
          rw [if_pos hc, if_pos hc, ih f' _ hdl hdl']
        · have hrl : rest.length ≤ f := by
            simp only [List.length_cons] at h1; omega
          have hrl' : rest.length ≤ f' := by
            simp only [List.length_cons] at h2; omega
          rw [if_neg hc, if_neg hc, ih f' _ hrl hrl']

theorem replaceAllPos_nil (pat rep : List Char) :
    replaceAllPos pat rep [] = [] := rfl

theorem replaceAllPos_cons (pat rep : List Char) (c : Char) (rest : List Char) :
    replaceAllPos pat rep (c :: rest) =
      if !pat.isEmpty && pat.isPrefixOf (c :: rest) then
        rep ++ replaceAllPos pat rep ((c :: rest).drop pat.length)
      else c :: replaceAllPos pat rep rest := by
  show replGo pat rep (rest.length + 1) (c :: rest) = _
  rw [replGo_succ]
  by_cases hc : (!pat.isEmpty && pat.isPrefixOf (c :: rest)) = true
  · have hpl : 1 ≤ pat.length := pat_length_pos_of_cond hc
    rw [if_pos hc, if_pos hc]
    refine congrArg (rep ++ ·) ?_
    apply replGo_congr
    · simp only [List.length_drop, List.length_cons]; omega
    · exact Nat.le_refl _
  · rw [if_neg hc, if_neg hc]
    refine congrArg (c :: ·) ?_
    apply replGo_congr
    · exact Nat.le_refl _
    · exact Nat.le_refl _

theorem begins_nil {e : List Char} (h : begins e []) : e = [] := by
  obtain ⟨t, ht⟩ := h
  exact (List.append_eq_nil.mp ht.symm).1

theorem begins_trans {a b c : List Char} (h1 : begins a b) (h2 : begins b c) :
    begins a c := by
  obtain ⟨x, rfl⟩ := h1
  obtain ⟨y, rfl⟩ := h2
  exact ⟨x ++ y, by simp⟩

theorem occurs_nil_iff (q : List Char) : Occurs q [] ↔ q = [] := by
  constructor
  · rintro ⟨u, v, h⟩
    rcases List.append_eq_nil.mp h.symm with ⟨h1, _⟩
    exact (List.append_eq_nil.mp h1).2
  · rintro rfl
    exact occurs_nil_pat []

theorem drop_len_le {c : Char} {rest pat : List Char} (hpl : 1 ≤ pat.length) :
    ((c :: rest).drop pat.length).length ≤ rest.length := by
  simp only [List.length_drop, List.length_cons]
  omega

/-- Decomposition of a replacement pass: the output is a prefix of the
input followed by nothing, or followed by a block that starts with the
replacement string. -/
theorem replaceAllPos_decomp (pat rep : List Char) :
    ∀ n : Nat, ∀ s : List Char, s.length ≤ n →
      ∃ u w, replaceAllPos pat rep s = u ++ w ∧ begins u s ∧
        (w = [] ∨ ∃ w', w = rep ++ w') := by
  intro n
  induction n with
  | zero =>
    intro s hs
    have h0 : s = [] := List.length_eq_zero.mp (Nat.le_zero.mp hs)
    subst h0
    exact ⟨[], [], by simp [replaceAllPos_nil], ⟨[], rfl⟩, Or.inl rfl⟩
  | succ n ih =>
    intro s hs
    cases s with
    | nil => exact ⟨[], [], by simp [replaceAllPos_nil], ⟨[], rfl⟩, Or.inl rfl⟩
    | cons c rest =>
      rw [replaceAllPos_cons]
      by_cases hc : (!pat.isEmpty && pat.isPrefixOf (c :: rest)) = true
      · rw [if_pos hc]
        exact ⟨[], rep ++ replaceAllPos pat rep ((c :: rest).drop pat.length),
          rfl, ⟨c :: rest, rfl⟩, Or.inr ⟨_, rfl⟩⟩
      · rw [if_neg hc]
        have hrl : rest.length ≤ n := by
          simp only [List.length_cons] at hs; omega
        obtain ⟨u, w, heq, ⟨t, ht⟩, hw⟩ := ih rest hrl
        exact ⟨c :: u, w, by rw [heq]; rfl, ⟨t, by rw [ht]; rfl⟩, hw⟩

/-- After replacement, the pattern no longer occurs, provided the
replacement is nonempty and shares no character with the pattern. -/
theorem replaceAllPos_no_pat {pat rep : List Char} (hpat : pat ≠ [])
    (hrep : rep ≠ []) (hdisj : ∀ c ∈ rep, c ∉ pat) :
    ∀ n : Nat, ∀ s : List Char, s.length ≤ n →
      ¬ Occurs pat (replaceAllPos pat rep s) := by
  intro n
  induction n with
  | zero =>
    intro s hs hocc
    have h0 : s = [] := List.length_eq_zero.mp (Nat.le_zero.mp hs)
    subst h0
    rw [replaceAllPos_nil] at hocc
    exact hpat ((occurs_nil_iff pat).mp hocc)
  | succ n ih =>
    intro s hs hocc
    cases s with
    | nil =>
      rw [replaceAllPos_nil] at hocc
      exact hpat ((occurs_nil_iff pat).mp hocc)
    | cons c rest =>
      rw [replaceAllPos_cons] at hocc
      by_cases hc : (!pat.isEmpty && pat.isPrefixOf (c :: rest)) = true
      · rw [if_pos hc] at hocc
        have hpl : 1 ≤ pat.length := pat_length_pos_of_cond hc
        have h2 := occurs_of_occurs_append hocc hpat hdisj
        exact ih _ (le_trans (drop_len_le hpl) (by simp only [List.length_cons] at hs; omega)) h2
      · rw [if_neg hc] at hocc
        rcases (occurs_cons_iff _ _ _).mp hocc with hb | ho
        · cases pat with
          | nil => exact hpat rfl
          | cons p0 pt =>
            obtain ⟨t, ht⟩ := hb
            rw [List.cons_append] at ht
            injection ht with h1 h2
            have hrl : rest.length ≤ n := by
              simp only [List.length_cons] at hs; omega
            obtain ⟨u, w, heq, hbu, hw⟩ := replaceAllPos_decomp (p0 :: pt) rep n rest hrl
            have hbt : begins pt (u ++ w) := ⟨t, by rw [← heq]; exact h2⟩
            by_cases hl : pt.length ≤ u.length
            · have hptu : begins pt u := begins_of_begins_append hbt hl
              have hptr : begins pt rest := begins_trans hptu hbu
              have hbig : begins (p0 :: pt) (c :: rest) := by
                obtain ⟨t', rfl⟩ := hptr
                exact ⟨t', by rw [h1, List.cons_append]⟩
              have hcond : (!(p0 :: pt).isEmpty && (p0 :: pt).isPrefixOf (c :: rest)) = true := by
                simp only [List.isEmpty_cons, Bool.not_false, Bool.true_and]
                exact (begins_iff _ _).2 hbig
              exact hc hcond
            · push_neg at hl
              obtain ⟨e, hpe, hene, hbe⟩ := begins_split_long hbt hl
              rcases hw with rfl | ⟨w', rfl⟩
              · exact hene (begins_nil hbe)
              · cases e with
                | nil => exact hene rfl
                | cons e0 e' =>
                  cases rep with
                  | nil => exact hrep rfl
                  | cons r0 r' =>
                    obtain ⟨t', ht'⟩ := hbe
                    rw [List.cons_append] at ht'
                    injection ht' with he1 _
                    have he0pat : e0 ∈ p0 :: pt := by
                      have hmem : e0 ∈ pt := by
                        rw [hpe]
                        exact List.mem_append.mpr (Or.inr (List.mem_cons_self _ _))
                      exact List.mem_cons_of_mem _ hmem
                    have hr0 : r0 ∈ r0 :: r' := List.mem_cons_self _ _
                    rw [← he1] at he0pat
                    exact hdisj r0 hr0 he0pat
        · have hrl : rest.length ≤ n := by
            simp only [List.length_cons] at hs; omega
          exact ih rest hrl ho

/-- A replacement pass with a nonempty replacement that shares no
character with `q` creates no new occurrence of `q`. -/
theorem replaceAllPos_occurs_sub {pat rep q : List Char}
    (hrep : rep ≠ []) (hdisj : ∀ c ∈ rep, c ∉ q) :
    ∀ n : Nat, ∀ s : List Char, s.length ≤ n →
      Occurs q (replaceAllPos pat rep s) → Occurs q s := by
  intro n
  induction n with
  | zero =>
    intro s hs hocc
    have h0 : s = [] := List.length_eq_zero.mp (Nat.le_zero.mp hs)
    subst h0
    rwa [replaceAllPos_nil] at hocc
  | succ n ih =>
    intro s hs hocc
    by_cases hq : q = []
    · subst hq; exact occurs_nil_pat s
    cases s with
    | nil => rwa [replaceAllPos_nil] at hocc
    | cons c rest =>
      rw [replaceAllPos_cons] at hocc
      have hrl : rest.length ≤ n := by
        simp only [List.length_cons] at hs; omega
      by_cases hc : (!pat.isEmpty && pat.isPrefixOf (c :: rest)) = true
      · rw [if_pos hc] at hocc
        have hpl : 1 ≤ pat.length := pat_length_pos_of_cond hc
        have h2 := occurs_of_occurs_append hocc hq hdisj
        have h3 := ih _ (le_trans (drop_len_le hpl) hrl) h2
        exact occurs_of_drop h3
      · rw [if_neg hc] at hocc
        rcases (occurs_cons_iff _ _ _).mp hocc with hb | ho
        · cases q with
          | nil => exact occurs_nil_pat _
          | cons q0 qt =>
            obtain ⟨t, ht⟩ := hb
            rw [List.cons_append] at ht
            injection ht with h1 h2
            obtain ⟨u, w, heq, hbu, hw⟩ := replaceAllPos_decomp pat rep n rest hrl
            have hbt : begins qt (u ++ w) := ⟨t, by rw [← heq]; exact h2⟩
            by_cases hl : qt.length ≤ u.length
            · have hqtu : begins qt u := begins_of_begins_append hbt hl
              have hqtr : begins qt rest := begins_trans hqtu hbu
              refine occurs_of_begins ?_
              obtain ⟨t', rfl⟩ := hqtr
              exact ⟨t', by rw [h1, List.cons_append]⟩
            · push_neg at hl
              obtain ⟨e, hpe, hene, hbe⟩ := begins_split_long hbt hl
              rcases hw with rfl | ⟨w', rfl⟩
              · exact absurd (begins_nil hbe) hene
              · cases e with
                | nil => exact absurd rfl hene
                | cons e0 e' =>
                  cases rep with
                  | nil => exact absurd rfl hrep
                  | cons r0 r' =>
                    obtain ⟨t', ht'⟩ := hbe
                    rw [List.cons_append] at ht'
                    injection ht' with he1 _
                    have he0q : e0 ∈ q0 :: qt := by
                      have h3 : e0 ∈ qt := by
                        rw [hpe]
                        exact List.mem_append.mpr (Or.inr (List.mem_cons_self _ _))
                      exact List.mem_cons_of_mem _ h3
                    rw [← he1] at he0q
                    exact absurd he0q (hdisj r0 (List.mem_cons_self _ _))
        · exact (occurs_cons_iff _ _ _).mpr (Or.inr (ih rest hrl ho))

/-- If the pattern does not occur, replacement is the identity. -/
theorem replaceAllPos_no_match (pat rep : List Char) :
    ∀ n : Nat, ∀ s : List Char, s.length ≤ n →
      occursIn pat s = false → replaceAllPos pat rep s = s := by
  intro n
  induction n with
  | zero =>
    intro s hs _
    have h0 : s = [] := List.length_eq_zero.mp (Nat.le_zero.mp hs)
    subst h0
    exact replaceAllPos_nil pat rep
  | succ n ih =>
    intro s hs hno
    cases s with
    | nil => exact replaceAllPos_nil pat rep
    | cons c rest =>
      have hno2 : (pat.isPrefixOf (c :: rest) || occursIn pat rest) = false := hno
      rw [Bool.or_eq_false_iff] at hno2
      rw [replaceAllPos_cons, if_neg (by simp [hno2.1]), ih rest
        (by simp only [List.length_cons] at hs; omega) hno2.2]

/-- Characters of the output come from the input or the replacement. -/
theorem replaceAllPos_chars (pat rep : List Char) :
    ∀ n : Nat, ∀ s : List Char, s.length ≤ n →
      ∀ c ∈ replaceAllPos pat rep s, c ∈ s ∨ c ∈ rep := by
  intro n
  induction n with
  | zero =>
    intro s hs c hc
    have h0 : s = [] := List.length_eq_zero.mp (Nat.le_zero.mp hs)
    subst h0
    rw [replaceAllPos_nil] at hc
    simp at hc
  | succ n ih =>
    intro s hs c hc
    cases s with
    | nil =>
      rw [replaceAllPos_nil] at hc
      simp at hc
    | cons x rest =>
      rw [replaceAllPos_cons] at hc
      have hrl : rest.length ≤ n := by
        simp only [List.length_cons] at hs; omega
      by_cases hcond : (!pat.isEmpty && pat.isPrefixOf (x :: rest)) = true
      · rw [if_pos hcond] at hc
        have hpl : 1 ≤ pat.length := pat_length_pos_of_cond hcond
        rcases List.mem_append.mp hc with hcr | hcs
        · exact Or.inr hcr
        · rcases ih _ (le_trans (drop_len_le hpl) hrl) c hcs with hin | hin
          · exact Or.inl (List.mem_of_mem_drop hin)
          · exact Or.inr hin
      · rw [if_neg hcond] at hc
        rcases List.mem_cons.mp hc with rfl | hcs
        · exact Or.inl (List.mem_cons_self _ _)
        · rcases ih rest hrl c hcs with hin | hin
          · exact Or.inl (List.mem_cons_of_mem _ hin)
          · exact Or.inr hin

/-- A replacement pass with nonempty replacement never empties a
nonempty string. -/
theorem replaceAllPos_ne_nil (pat : List Char) {rep : List Char} (hrep : rep ≠ []) :
    ∀ s : List Char, s ≠ [] → replaceAllPos pat rep s ≠ [] := by
  intro s hs
  cases s with
  | nil => exact absurd rfl hs
  | cons c rest =>
    rw [replaceAllPos_cons]
    by_cases hc : (!pat.isEmpty && pat.isPrefixOf (c :: rest)) = true
    · rw [if_pos hc]
      simp [hrep]
    · rw [if_neg hc]
      simp

/-- A replacement pass preserves the existence of a character with a
given property, provided the replacement contains one. -/
theorem replaceAllPos_ex {pat rep : List Char} (P : Char → Prop)
    (hrepP : ∃ c ∈ rep, P c) :
    ∀ n : Nat, ∀ s : List Char, s.length ≤ n →
      (∃ c ∈ s, P c) → ∃ c ∈ replaceAllPos pat rep s, P c := by
  intro n
  induction n with
  | zero =>
    intro s hs hex
    have h0 : s = [] := List.length_eq_zero.mp (Nat.le_zero.mp hs)
    subst h0
    simp at hex
  | succ n ih =>
    intro s hs hex
    cases s with
    | nil => simp at hex
    | cons x rest =>
      rw [replaceAllPos_cons]
      have hrl : rest.length ≤ n := by
        simp only [List.length_cons] at hs; omega
      by_cases hcond : (!pat.isEmpty && pat.isPrefixOf (x :: rest)) = true
      · rw [if_pos hcond]
        obtain ⟨c, hcr, hPc⟩ := hrepP
        exact ⟨c, List.mem_append.mpr (Or.inl hcr), hPc⟩
      · rw [if_neg hcond]
        obtain ⟨c, hcs, hPc⟩ := hex
        rcases List.mem_cons.mp hcs with rfl | hcs'
        · exact ⟨c, List.mem_cons_self _ _, hPc⟩
        · obtain ⟨d, hd, hPd⟩ := ih rest hrl ⟨c, hcs', hPc⟩
          exact ⟨d, List.mem_cons_of_mem _ hd, hPd⟩

end ReplLemmas

section ChunkLemmas

theorem chunkGo_nil (p : Char → Bool) (f : Nat) : chunkGo p f [] = [] := by
  cases f <;> rfl

theorem chunkGo_succ (p : Char → Bool) (f : Nat) (c : Char) (rest : List Char) :
    chunkGo p (f + 1) (c :: rest) =
      (c :: rest.takeWhile (fun d => p d == p c)) ::
        chunkGo p f (rest.dropWhile (fun d => p d == p c)) := rfl

theorem dropWhile_length_le (q : Char → Bool) :
    ∀ l : List Char, (l.dropWhile q).length ≤ l.length := by
  intro l
  induction l with
  | nil => simp
  | cons c rest ih =>
    cases hqc : q c with
    | true =>
      simp only [List.dropWhile, hqc]
      exact le_trans ih (by simp)
    | false =>
      simp only [List.dropWhile, hqc]
      simp

theorem chunkGo_congr (p : Char → Bool) :
    ∀ f₁ : Nat, ∀ f₂ : Nat, ∀ s : List Char, s.length ≤ f₁ → s.length ≤ f₂ →
      chunkGo p f₁ s = chunkGo p f₂ s := by
  intro f₁
  induction f₁ with
  | zero =>
    intro f₂ s h1 _
    have hs : s = [] := List.length_eq_zero.mp (Nat.le_zero.mp h1)
    subst hs
    rw [chunkGo_nil, chunkGo_nil]
  | succ f ih =>
    intro f₂ s h1 h2
    cases s with
    | nil => rw [chunkGo_nil, chunkGo_nil]
    | cons c rest =>
      cases f₂ with
      | zero => simp at h2
      | succ f' =>
        rw [chunkGo_succ, chunkGo_succ]
        have hd : (rest.dropWhile (fun d => p d == p c)).length ≤ rest.length :=
          dropWhile_length_le _ rest
        simp only [List.length_cons] at h1 h2
        rw [ih f' _ (by omega) (by omega)]

theorem chunkBy_nil (p : Char → Bool) : chunkBy p [] = [] := rfl

theorem chunkBy_cons (p : Char → Bool) (c : Char) (rest : List Char) :
    chunkBy p (c :: rest) =
      (c :: rest.takeWhile (fun d => p d == p c)) ::
        chunkBy p (rest.dropWhile (fun d => p d == p c)) := by
  show chunkGo p (rest.length + 1) (c :: rest) = _
  rw [chunkGo_succ]
  congr 1
  apply chunkGo_congr
  · exact dropWhile_length_le _ rest
  · exact Nat.le_refl _

theorem chunkBy_flatten (p : Char → Bool) :
    ∀ n : Nat, ∀ s : List Char, s.length ≤ n → (chunkBy p s).flatten = s := by
  intro n
  induction n with
  | zero =>
    intro s hs
    have h0 : s = [] := List.length_eq_zero.mp (Nat.le_zero.mp hs)
    subst h0
    rfl
  | succ n ih =>
    intro s hs
    cases s with
    | nil => rfl
    | cons c rest =>
      rw [chunkBy_cons]
      simp only [List.flatten_cons]
      rw [ih _ (le_trans (dropWhile_length_le _ rest)
        (by simp only [List.length_cons] at hs; omega))]
      rw [List.cons_append, List.takeWhile_append_dropWhile]

theorem dropWhile_head_false (q : Char → Bool) :
    ∀ l : List Char, ∀ d : Char, ∀ ds : List Char,
      l.dropWhile q = d :: ds → q d = false := by
  intro l
  induction l with
  | nil => intro d ds h; simp at h
  | cons c rest ih =>
    intro d ds h
    cases hqc : q c with
    | true =>
      simp only [List.dropWhile, hqc] at h
      exact ih d ds h
    | false =>
      simp only [List.dropWhile, hqc] at h
      injection h with h1 _
      rw [← h1]
      exact hqc

theorem mem_takeWhile_pred (q : Char → Bool) :
    ∀ l : List Char, ∀ d : Char, d ∈ l.takeWhile q → q d = true := by
  intro l
  induction l with
  | nil => intro d h; simp at h
  | cons c rest ih =>
    intro d h
    cases hqc : q c with
    | true =>
      simp only [List.takeWhile, hqc] at h
      rcases List.mem_cons.mp h with rfl | h2
      · exact hqc
      · exact ih d h2
    | false =>
      simp only [List.takeWhile, hqc] at h
      simp at h

theorem chunksOk_chunkBy (p : Char → Bool) :
    ∀ n : Nat, ∀ s : List Char, s.length ≤ n → ChunksOk p (chunkBy p s) := by
  intro n
  induction n with
  | zero =>
    intro s hs
    have h0 : s = [] := List.length_eq_zero.mp (Nat.le_zero.mp hs)
    subst h0
    exact ChunksOk.nil
  | succ n ih =>
    intro s hs
    cases s with
    | nil => exact ChunksOk.nil
    | cons c rest =>
      rw [chunkBy_cons]
      have hdle : (rest.dropWhile (fun d => p d == p c)).length ≤ n :=
        le_trans (dropWhile_length_le _ rest)
          (by simp only [List.length_cons] at hs; omega)
      refine ChunksOk.cons _ _ (by simp) ?_ ?_ (ih _ hdle)
      · intro d hd
        have hval : runVal p (c :: rest.takeWhile (fun d => p d == p c)) = p c := rfl
        rw [hval]
        rcases List.mem_cons.mp hd with rfl | h2
        · rfl
        · exact beq_iff_eq.mp (mem_takeWhile_pred _ rest d h2)
      · cases hdrop : rest.dropWhile (fun d => p d == p c) with
        | nil => left; rfl
        | cons d ds =>
          right
          rw [chunkBy_cons, List.headD_cons]
          have hdf : (p d == p c) = false := dropWhile_head_false _ rest d ds hdrop
          show p d = !p c
          cases hpc : p c <;> cases hpd : p d <;> simp_all

theorem takeWhile_append_all (q : Char → Bool) :
    ∀ a : List Char, ∀ w : List Char, (∀ c ∈ a, q c = true) →
      (a ++ w).takeWhile q = a ++ w.takeWhile q := by
  intro a
  induction a with
  | nil => intro w _; rfl
  | cons c a' ih =>
    intro w ha
    have hc : q c = true := ha c (List.mem_cons_self _ _)
    simp only [List.cons_append, List.takeWhile, hc]
    exact congrArg (c :: ·) (ih w (fun x hx => ha x (List.mem_cons_of_mem _ hx)))

theorem dropWhile_append_all (q : Char → Bool) :
    ∀ a : List Char, ∀ w : List Char, (∀ c ∈ a, q c = true) →
      (a ++ w).dropWhile q = w.dropWhile q := by
  intro a
  induction a with
  | nil => intro w _; rfl
  | cons c a' ih =>
    intro w ha
    have hc : q c = true := ha c (List.mem_cons_self _ _)
    simp only [List.cons_append, List.dropWhile, hc]
    exact ih w (fun x hx => ha x (List.mem_cons_of_mem _ hx))

theorem takeWhile_cons_false {q : Char → Bool} {d : Char} (ds : List Char)
    (h : q d = false) : (d :: ds).takeWhile q = [] := by
  simp [List.takeWhile, h]

theorem dropWhile_cons_false {q : Char → Bool} {d : Char} (ds : List Char)
    (h : q d = false) : (d :: ds).dropWhile q = d :: ds := by
  simp [List.dropWhile, h]

/-- Chunking a homogeneous nonempty run followed by text of the
opposite leading value produces the run as the first chunk. -/
theorem chunk_append_run (p : Char → Bool) (b : Bool) :
    ∀ r : List Char, ∀ w : List Char, r ≠ [] → (∀ c ∈ r, p c = b) →
      (w = [] ∨ p (w.headD ' ') = !b) →
      chunkBy p (r ++ w) = r :: chunkBy p w := by
  intro r w hne hhom hw
  cases r with
  | nil => exact absurd rfl hne
  | cons x r' =>
    have hx : p x = b := hhom x (List.mem_cons_self _ _)
    have hall : ∀ c ∈ r', (fun d => p d == p x) c = true := by
      intro c hc
      have h1 : p c = b := hhom c (List.mem_cons_of_mem _ hc)
      simp only [h1, hx, beq_self_eq_true]
    have hwtake : w.takeWhile (fun d => p d == p x) = [] := by
      rcases hw with rfl | hw2
      · rfl
      · cases w with
        | nil => rfl
        | cons d ds =>
          apply takeWhile_cons_false
          simp only [List.headD_cons] at hw2
          simp only [hw2, hx]
          cases b <;> simp
    have hwdrop : w.dropWhile (fun d => p d == p x) = w := by
      rcases hw with rfl | hw2
      · rfl
      · cases w with
        | nil => rfl
        | cons d ds =>
          apply dropWhile_cons_false
          simp only [List.headD_cons] at hw2
          simp only [hw2, hx]
          cases b <;> simp
    rw [List.cons_append, chunkBy_cons]
    rw [takeWhile_append_all _ r' w hall, dropWhile_append_all _ r' w hall]
    rw [hwtake, hwdrop]
    simp

theorem headD_append {h : List Char} (x : List Char) (d : Char)
    (hne : h ≠ []) : (h ++ x).headD d = h.headD d := by
  cases h with
  | nil => exact absurd rfl hne
  | cons c t => rfl

/-- Chunking is a left inverse of flattening on well-formed run
lists. -/
theorem chunkBy_flatten_of_ok (p : Char → Bool) :
    ∀ rs : List (List Char), ChunksOk p rs → chunkBy p rs.flatten = rs := by
  intro rs h
  induction h with
  | nil => rfl
  | cons g gs hne hhom halt htail ih =>
    simp only [List.flatten_cons]
    have hw : gs.flatten = [] ∨ p (gs.flatten.headD ' ') = !(runVal p g) := by
      rcases halt with rfl | h2
      · left; rfl
      · cases htail with
        | nil => left; rfl
        | cons h t hne2 hhom2 halt2 htail2 =>
          right
          simp only [List.flatten_cons]
          rw [headD_append _ _ hne2]
          simp only [List.headD_cons] at h2
          exact h2
    have hhom' : ∀ c ∈ g, p c = runVal p g := hhom
    rw [chunk_append_run p (runVal p g) g gs.flatten hne hhom' hw, ih]

theorem chunksOk_mem {p : Char → Bool} {rs : List (List Char)}
    (h : ChunksOk p rs) : ∀ g ∈ rs, g ≠ [] ∧ ∀ c ∈ g, p c = runVal p g := by
  induction h with
  | nil => intro g hg; simp at hg
  | cons g' gs hne hhom _ _ ih =>
    intro g hg
    rcases List.mem_cons.mp hg with rfl | h2
    · exact ⟨hne, hhom⟩
    · exact ih g h2

end ChunkLemmas

section PhNameLemmas

theorem toDecGo_forall (P : Char → Prop) (hdig : ∀ k, k < 10 → P (digitChar k)) :
    ∀ f : Nat, ∀ n : Nat, ∀ acc : List Char, (∀ c ∈ acc, P c) →
      ∀ c ∈ toDecGo f n acc, P c := by
  intro f
  induction f with
  | zero =>
    intro n acc hacc c hc
    simp only [toDecGo] at hc
    rcases List.mem_cons.mp hc with rfl | h2
    · exact hdig _ (Nat.mod_lt _ (by omega))
    · exact hacc c h2
  | succ f ih =>
    intro n acc hacc c hc
    simp only [toDecGo] at hc
    by_cases hn : n < 10
    · rw [if_pos hn] at hc
      rcases List.mem_cons.mp hc with rfl | h2
      · exact hdig n hn
      · exact hacc c h2
    · rw [if_neg hn] at hc
      refine ih (n / 10) _ ?_ c hc
      intro d hd
      rcases List.mem_cons.mp hd with rfl | h2
      · exact hdig _ (Nat.mod_lt _ (by omega))
      · exact hacc d h2

theorem phName_forall (P : Char → Prop) (hu : P '_') (hp : P 'P') (hn : P 'N')
    (hdig : ∀ k, k < 10 → P (digitChar k)) :
    ∀ i : Nat, ∀ c ∈ phName i, P c := by
  intro i c hc
  unfold phName at hc
  rcases List.mem_append.mp hc with h1 | h2
  · rcases List.mem_append.mp h1 with h3 | h4
    · have : c = '_' ∨ c = '_' ∨ c = 'P' ∨ c = 'N' ∨ c = '_' := by
        simpa using h3
      rcases this with rfl | rfl | rfl | rfl | rfl
      · exact hu
      · exact hu
      · exact hp
      · exact hn
      · exact hu
    · exact toDecGo_forall P hdig i i [] (by simp) c h4
  · have : c = '_' ∨ c = '_' := by simpa using h2
    rcases this with rfl | rfl
    · exact hu
    · exact hu

theorem phName_alpha (i : Nat) : ∀ c ∈ phName i, phAlpha c = true := by
  refine phName_forall (fun c => phAlpha c = true) (by decide) (by decide)
    (by decide) ?_ i
  intro k hk
  interval_cases k <;> decide

theorem phName_not_boundary (i : Nat) :
    ∀ c ∈ phName i, isBoundaryCh c = false := by
  refine phName_forall (fun c => isBoundaryCh c = false) (by decide) (by decide)
    (by decide) ?_ i
  intro k hk
  interval_cases k <;> decide

theorem phName_ne_nil (i : Nat) : phName i ≠ [] := by
  unfold phName
  simp

theorem phName_mem_P (i : Nat) : 'P' ∈ phName i := by
  unfold phName
  refine List.mem_append.mpr (Or.inl (List.mem_append.mpr (Or.inl ?_)))
  simp

theorem phName_has_nonws (i : Nat) : ∃ c ∈ phName i, isWsCh c = false :=
  ⟨'P', phName_mem_P i, rfl⟩

theorem replaceAll_of_ne_nil {pat : List Char} (rep s : List Char)
    (h : pat ≠ []) : replaceAll pat rep s = replaceAllPos pat rep s := by
  unfold replaceAll
  rw [if_neg (by simp [h])]

end PhNameLemmas

section TrimLemmas

theorem mem_of_mem_dropWhile {q : Char → Bool} :
    ∀ l : List Char, ∀ c : Char, c ∈ l.dropWhile q → c ∈ l := by
  intro l
  induction l with
  | nil => intro c hc; simp at hc
  | cons x rest ih =>
    intro c hc
    cases hq : q x with
    | true =>
      simp only [List.dropWhile, hq] at hc
      exact List.mem_cons_of_mem _ (ih c hc)
    | false =>
      simp only [List.dropWhile, hq] at hc
      exact hc

theorem mem_trim {l : List Char} {c : Char} (h : c ∈ trim l) : c ∈ l := by
  unfold trim trimL at h
  have h1 := List.mem_reverse.mp h
  have h2 := mem_of_mem_dropWhile _ _ h1
  have h3 := List.mem_reverse.mp h2
  exact mem_of_mem_dropWhile _ _ h3

theorem trim_eq_self {l : List Char} (h : ∀ c ∈ l, isWsCh c = false) :
    trim l = l := by
  unfold trim trimL
  have h1 : l.dropWhile isWsCh = l := by
    cases l with
    | nil => rfl
    | cons c rest => exact dropWhile_cons_false _ (h c (List.mem_cons_self _ _))
  rw [h1]
  have h2 : l.reverse.dropWhile isWsCh = l.reverse := by
    cases hr : l.reverse with
    | nil => rfl
    | cons c rest =>
      apply dropWhile_cons_false
      apply h
      apply List.mem_reverse.mp
      rw [hr]
      exact List.mem_cons_self _ _
  rw [h2, List.reverse_reverse]

theorem trim_empty_iff (l : List Char) :
    trim l = [] ↔ ∀ c ∈ l, isWsCh c = true := by
  unfold trim trimL
  constructor
  · intro h c hc
    have h1 : (l.dropWhile isWsCh).reverse.dropWhile isWsCh = [] := by
      have h2 := congrArg List.reverse h
      rwa [List.reverse_reverse, List.reverse_nil] at h2
    have h3 : ∀ c ∈ (l.dropWhile isWsCh).reverse, isWsCh c = true := by
      intro d hd
      exact List.dropWhile_eq_nil_iff.mp h1 d hd
    have h4 : ∀ c ∈ l.dropWhile isWsCh, isWsCh c = true := by
      intro d hd
      exact h3 d (List.mem_reverse.mpr hd)
    have h5 : l = l.takeWhile isWsCh ++ l.dropWhile isWsCh :=
      (List.takeWhile_append_dropWhile isWsCh l).symm
    rw [h5] at hc
    rcases List.mem_append.mp hc with h6 | h6
    · exact mem_takeWhile_pred _ l c h6
    · exact h4 c h6
  · intro h
    have h1 : l.dropWhile isWsCh = [] :=
      List.dropWhile_eq_nil_iff.mpr h
    rw [h1]
    rfl

end TrimLemmas

section MergeLemmas

theorem addPunct_length (f : List Char) :
    ∀ acc : List (List Char), (addPunct acc f).length = acc.length := by
  intro acc
  induction acc with
  | nil => rfl
  | cons x xs ih =>
    cases xs with
    | nil => rfl
    | cons y ys =>
      show (x :: addPunct (y :: ys) f).length = _
      simp only [List.length_cons] at ih ⊢
      omega

theorem mergeFrags_length :
    ∀ fs acc : List (List Char),
      (mergeFrags acc fs).length = acc.length + fs.countP (fun f => !isPunctRun f) := by
  intro fs
  induction fs with
  | nil => intro acc; simp [mergeFrags]
  | cons f rest ih =>
    intro acc
    show (if isPunctRun f then mergeFrags (addPunct acc f) rest
      else mergeFrags (acc ++ [f]) rest).length = _
    by_cases hp : isPunctRun f = true
    · rw [if_pos hp, ih, addPunct_length, List.countP_cons]
      simp [hp]
    · rw [if_neg hp, ih, List.countP_cons]
      have hp' : isPunctRun f = false := by
        cases hv : isPunctRun f
        · rfl
        · exact absurd hv hp
      simp [hp']
      omega

theorem addPunct_ne (f : List Char) :
    ∀ acc : List (List Char), (∀ x ∈ acc, x ≠ []) →
      ∀ x ∈ addPunct acc f, x ≠ [] := by
  intro acc
  induction acc with
  | nil => intro _ x hx; simp [addPunct] at hx
  | cons a as ih =>
    intro hacc x hx
    cases as with
    | nil =>
      simp only [addPunct] at hx
      rcases List.mem_cons.mp hx with rfl | h2
      · have ha : a ≠ [] := hacc a (List.mem_cons_self _ _)
        intro he
        rcases List.append_eq_nil.mp he with ⟨h3, _⟩
        exact ha h3
      · simp at h2
    | cons b bs =>
      simp only [addPunct] at hx
      rcases List.mem_cons.mp hx with rfl | h2
      · exact hacc x (List.mem_cons_self _ _)
      · exact ih (fun y hy => hacc y (List.mem_cons_of_mem _ hy)) x h2

theorem mergeFrags_ne :
    ∀ fs acc : List (List Char), (∀ f ∈ fs, f ≠ []) → (∀ x ∈ acc, x ≠ []) →
      ∀ x ∈ mergeFrags acc fs, x ≠ [] := by
  intro fs
  induction fs with
  | nil => intro acc _ hacc x hx; exact hacc x hx
  | cons f rest ih =>
    intro acc hfs hacc x hx
    by_cases hp : isPunctRun f = true
    · have hx2 : x ∈ mergeFrags (addPunct acc f) rest := by
        simpa [mergeFrags, hp] using hx
      exact ih _ (fun y hy => hfs y (List.mem_cons_of_mem _ hy))
        (addPunct_ne f acc hacc) x hx2
    · have hx2 : x ∈ mergeFrags (acc ++ [f]) rest := by
        simpa [mergeFrags, hp] using hx
      refine ih _ (fun y hy => hfs y (List.mem_cons_of_mem _ hy)) ?_ x hx2
      intro y hy
      rcases List.mem_append.mp hy with h2 | h2
      · exact hacc y h2
      · have hyf : y = f := by simpa using h2
        rw [hyf]
        exact hfs f (List.mem_cons_self _ _)

theorem countP_ext {α : Type} (p q : α → Bool) :
    ∀ l : List α, (∀ a ∈ l, p a = q a) → l.countP p = l.countP q := by
  intro l
  induction l with
  | nil => intro _; rfl
  | cons a as ih =>
    intro h
    rw [List.countP_cons, List.countP_cons,
      ih (fun x hx => h x (List.mem_cons_of_mem _ hx)),
      h a (List.mem_cons_self _ _)]

/-- Length formula for the segmenter: the number of sentences is the
number of kept fragments that are not pure punctuation. -/
theorem segLen_formula (x : List Char) :
    (splitIntoSentences x).length =
      ((chunkBy isBoundaryCh x).filter (fun s => !(trim s).isEmpty)).countP
        (fun g => !isPunctRun (trim g)) := by
  unfold splitIntoSentences
  have hfe : ∀ f ∈ ((chunkBy isBoundaryCh x).filter
      (fun s => !(trim s).isEmpty)).map trim, f ≠ [] := by
    intro f hf
    obtain ⟨g, hg, rfl⟩ := List.mem_map.mp hf
    have h2 := List.of_mem_filter hg
    simp only [Bool.not_eq_true', List.isEmpty_eq_false] at h2
    exact h2
  have hne := mergeFrags_ne _ [] hfe (by simp)
  rw [List.filter_eq_self.mpr (by
    intro a ha
    simp only [Bool.not_eq_true', List.isEmpty_eq_false]
    exact hne a ha)]
  rw [mergeFrags_length]
  simp only [List.length_nil, Nat.zero_add]
  rw [List.countP_map]
  rfl

end MergeLemmas

section PostLemmas

theorem list_ne_nil_isEmpty {l : List Char} (h : l ≠ []) : l.isEmpty = false := by
  cases l with
  | nil => exact absurd rfl h
  | cons c rest => rfl

theorem translateAll_length (f : Nat → LlmResult) :
    ∀ ps : List (List Char), ∀ i : Nat, (translateAll f i ps).length = ps.length := by
  intro ps
  induction ps with
  | nil => intro i; rfl
  | cons s rest ih =>
    intro i
    show (translateSentence s (f i) :: translateAll f (i + 1) rest).length = _
    simp only [List.length_cons, ih]

theorem translateAll_getD (f : Nat → LlmResult) :
    ∀ ps : List (List Char), ∀ i k : Nat, k < ps.length →
      (translateAll f i ps).getD k [] =
        translateSentence (ps.getD k []) (f (i + k)) := by
  intro ps
  induction ps with
  | nil => intro i k hk; simp at hk
  | cons s rest ih =>
    intro i k hk
    cases k with
    | zero => rfl
    | succ k' =>
      show (translateAll f (i + 1) rest).getD k' [] = _
      rw [ih (i + 1) k' (by simp only [List.length_cons] at hk; omega)]
      have harith : i + 1 + k' = i + (k' + 1) := by omega
      rw [harith]
      rfl

theorem buildRows_cons (m : List (List Char × List Char)) (o t : List Char)
    (os ts : List (List Char)) :
    buildRows m (o :: os) (t :: ts) =
      (o, restoreProperNouns t m) :: buildRows m os ts := rfl

theorem buildRows_length (m : List (List Char × List Char)) :
    ∀ os ts : List (List Char), os.length ≤ ts.length →
      (buildRows m os ts).length = os.length := by
  intro os
  induction os with
  | nil => intro ts _; rfl
  | cons o os' ih =>
    intro ts h
    cases ts with
    | nil => simp at h
    | cons t ts' =>
      rw [buildRows_cons]
      simp only [List.length_cons]
      rw [ih ts' (by simp only [List.length_cons] at h; omega)]

theorem buildRows_getD (m : List (List Char × List Char)) :
    ∀ os ts : List (List Char), ∀ k : Nat, k < os.length → k < ts.length →
      (buildRows m os ts).getD k ([], []) =
        (os.getD k [], restoreProperNouns (ts.getD k []) m) := by
  intro os
  induction os with
  | nil => intro ts k hk _; simp at hk
  | cons o os' ih =>
    intro ts k hk1 hk2
    cases ts with
    | nil => simp at hk2
    | cons t ts' =>
      rw [buildRows_cons]
      cases k with
      | zero => rfl
      | succ k' =>
        show (buildRows m os' ts').getD k' ([], []) = _
        rw [ih ts' k' (by simp only [List.length_cons] at hk1; omega)
          (by simp only [List.length_cons] at hk2; omega)]
        rfl

theorem POST_eq_ok (text : List Char) (g : Glossary) (f : Nat → LlmResult)
    (hne : text ≠ [])
    (hlen : (splitIntoSentences text).length ≤
      (splitIntoSentences (protectProperNouns text g).protectedText).length) :
    POST text g f = .ok
      { outputText := restoreProperNouns (List.intercalate [' ']
          (translateAll f 0 (splitIntoSentences (protectProperNouns text g).protectedText)))
          (protectProperNouns text g).pmap
        riskLevel := (classifyRisk (detectUnknownProperNouns text g)).1
        warnings := (classifyRisk (detectUnknownProperNouns text g)).2
        appliedGlossary := (protectProperNouns text g).found
        sentences := buildRows (protectProperNouns text g).pmap
          (splitIntoSentences text)
          (translateAll f 0 (splitIntoSentences (protectProperNouns text g).protectedText)) } := by
  unfold POST
  rw [if_neg (by simp [list_ne_nil_isEmpty hne])]
  have hlen2 : (splitIntoSentences text).length ≤
      (translateAll f 0 (splitIntoSentences (protectProperNouns text g).protectedText)).length := by
    rw [translateAll_length]
    exact hlen
  rw [if_pos hlen2]

theorem POST_eq_err (text : List Char) (g : Glossary) (f : Nat → LlmResult)
    (hne : text ≠ [])
    (hlen : (splitIntoSentences (protectProperNouns text g).protectedText).length <
      (splitIntoSentences text).length) :
    POST text g f = .internalError := by
  unfold POST
  rw [if_neg (by simp [list_ne_nil_isEmpty hne])]
  have hlen2 : ¬((splitIntoSentences text).length ≤
      (translateAll f 0 (splitIntoSentences (protectProperNouns text g).protectedText)).length) := by
    rw [translateAll_length]
    omega
  rw [if_neg hlen2]

end PostLemmas

section Claims

/-- C4: the classifier returns GREEN with no warnings on an empty
candidate list; on a nonempty list it returns RED with the single
Japanese warning enumerating all candidates when at least one candidate
has character length in [2,4], and otherwise YELLOW with the single
English warning enumerating all candidates. -/
theorem c4_classify_policy :
    classifyRisk [] = (Risk.GREEN, []) ∧
    ∀ l : List (List Char), l ≠ [] →
      ((∃ x ∈ l, 2 ≤ x.length ∧ x.length ≤ 4) →
        classifyRisk l = (Risk.RED, [redWarning l])) ∧
      ((∀ x ∈ l, ¬(2 ≤ x.length ∧ x.length ≤ 4)) →
        classifyRisk l = (Risk.YELLOW, [yellowWarning l])) := by
  refine ⟨rfl, ?_⟩
  intro l hl
  have hne : l.isEmpty = false := by
    cases l with
    | nil => exact absurd rfl hl
    | cons a as => rfl
  constructor
  · rintro ⟨x, hx, h2, h4⟩
    have hany : l.any isNameShaped = true := by
      refine List.any_eq_true.mpr ⟨x, hx, ?_⟩
      simp only [isNameShaped, Bool.and_eq_true, decide_eq_true_eq]
      exact ⟨h2, h4⟩
    simp [classifyRisk, hne, hany]
  · intro hall
    have hany : l.any isNameShaped = false := by
      rw [Bool.eq_false_iff]
      intro hc
      obtain ⟨x, hx, hshape⟩ := List.any_eq_true.mp hc
      simp only [isNameShaped, Bool.and_eq_true, decide_eq_true_eq] at hshape
      exact hall x hx hshape
    simp [classifyRisk, hne, hany]

/-- Witness for C4 at the spec's own example inputs. -/
theorem c4_classify_policy_witness :
    classifyRisk [] = (Risk.GREEN, []) ∧
    classifyRisk ["田中".toList] = (Risk.RED, [redWarning ["田中".toList]]) ∧
    classifyRisk ["国際交流センター".toList] =
      (Risk.YELLOW, [yellowWarning ["国際交流センター".toList]]) := by
  refine ⟨c4_classify_policy.1, ?_, ?_⟩
  · exact (c4_classify_policy.2 ["田中".toList] (by decide)).1
      ⟨"田中".toList, List.mem_cons_self _ _, by decide, by decide⟩
  · exact (c4_classify_policy.2 ["国際交流センター".toList] (by decide)).2
      (by decide)

/-- C9: when the glossary file is missing or malformed, `loadGlossary`
returns the empty glossary instead of raising; with an empty glossary
the pipeline protects nothing (text unchanged, no placeholders, no
applied terms) and flags every qualifying kanji run as unverified. -/
theorem c9_load_degrades :
    loadGlossary none (.error ()) = ([], none) ∧
    (∀ t : List Char, protectProperNouns t [] = ⟨t, [], []⟩) ∧
    (∀ t : List Char, detectUnknownProperNouns t [] = kanjiRuns t) := by
  refine ⟨rfl, fun t => rfl, fun t => ?_⟩
  show (kanjiRuns t).filter _ = kanjiRuns t
  apply List.filter_eq_self.mpr
  intro a _
  rfl

/-- C10: the module-level cache is written only on a successful load:
a failed load leaves it unset (so the empty fallback is not cached and
the next call re-reads the file), a successful load caches the parsed
glossary, and any later call returns the cached value regardless of the
state of the file. -/
theorem c10_cache_on_success_only :
    (∀ u : Unit, loadGlossary none (.error u) = ([], none)) ∧
    (∀ g : Glossary, loadGlossary none (.ok g) = (g, some g)) ∧
    (∀ g : Glossary, ∀ d : Except Unit Glossary, loadGlossary (some g) d = (g, some g)) ∧
    (∀ u : Unit, ∀ g : Glossary,
      loadGlossary (loadGlossary none (.error u)).2 (.ok g) = (g, some g)) :=
  ⟨fun _ => rfl, fun _ => rfl, fun _ _ => rfl, fun _ _ => rfl⟩

/-- C5: `translateSentence` is total and returns the input sentence on
every failure path (thrown error, missing content, empty translation);
consequently, whenever the request completes, the `sentences` array has
exactly one row per original sentence, row `k` pairing the k-th
original sentence with the restored translation of the k-th protected
sentence under the k-th call outcome — so one sentence's failure never
drops the others' translations. -/
theorem c5_translate_fallback :
    (∀ s : List Char, translateSentence s .err = s ∧
      translateSentence s (.ok none) = s ∧
      translateSentence s (.ok (some [])) = s) ∧
    (∀ text : List Char, ∀ g : Glossary, ∀ f : Nat → LlmResult, text ≠ [] →
      (splitIntoSentences text).length ≤
        (splitIntoSentences (protectProperNouns text g).protectedText).length →
      ∃ r : ApiResponse, POST text g f = .ok r ∧
        r.sentences.length = (splitIntoSentences text).length ∧
        ∀ k : Nat, k < (splitIntoSentences text).length →
          r.sentences.getD k ([], []) =
            ((splitIntoSentences text).getD k [],
             restoreProperNouns
               (translateSentence
                 ((splitIntoSentences (protectProperNouns text g).protectedText).getD k [])
                 (f k))
               (protectProperNouns text g).pmap)) := by
  refine ⟨fun s => ⟨rfl, rfl, rfl⟩, ?_⟩
  intro text g f hne hlen
  refine ⟨_, POST_eq_ok text g f hne hlen, ?_, ?_⟩
  · exact buildRows_length _ _ _ (by rw [translateAll_length]; exact hlen)
  · intro k hk
    have hk2 : k < (translateAll f 0
        (splitIntoSentences (protectProperNouns text g).protectedText)).length := by
      rw [translateAll_length]
      omega
    rw [buildRows_getD _ _ _ k hk hk2]
    rw [translateAll_getD f _ 0 k (by rw [translateAll_length] at hk2; exact hk2)]
    rw [Nat.zero_add]

/-- Witness for C5: one-sentence input, empty glossary, failing call. -/
theorem c5_translate_fallback_witness :
    ∃ r : ApiResponse, POST "a".toList [] (fun _ => .err) = .ok r ∧
      r.sentences.length = (splitIntoSentences "a".toList).length ∧
      ∀ k : Nat, k < (splitIntoSentences "a".toList).length →
        r.sentences.getD k ([], []) =
          ((splitIntoSentences "a".toList).getD k [],
           restoreProperNouns
             (translateSentence
               ((splitIntoSentences (protectProperNouns "a".toList []).protectedText).getD k [])
               ((fun _ => LlmResult.err) k))
             (protectProperNouns "a".toList []).pmap) :=
  c5_translate_fallback.2 "a".toList [] (fun _ => .err) (by decide) (by decide)

/-- C1 counterexample: a vocabulary term containing a sentence boundary
makes the two segmentations diverge, and then the request fails with
the generic 500 instead of completing with a whole-text fallback. -/
theorem c1_counterexample :
    (splitIntoSentences "あ。い".toList).length ≠
      (splitIntoSentences (protectProperNouns "あ。い".toList
        [("c".toList, [("あ。い".toList, ⟨"X".toList, []⟩)])]).protectedText).length ∧
    POST "あ。い".toList [("c".toList, [("あ。い".toList, ⟨"X".toList, []⟩)])]
      (fun _ => .err) = .internalError := by
  constructor
  · decide
  · decide

/-- C1 (amended): there is no whole-text fallback.  When the original
segmentation is no longer than the protected one the request completes
and every row of `sentences` is defined (surplus protected translations
are silently dropped); when the original segmentation is strictly
longer, the per-row map reads past the translations array and the
request fails with the generic 500. -/
theorem c1_no_fallback :
    ∀ text : List Char, ∀ g : Glossary, ∀ f : Nat → LlmResult, text ≠ [] →
      (((splitIntoSentences text).length ≤
          (splitIntoSentences (protectProperNouns text g).protectedText).length →
        ∃ r : ApiResponse, POST text g f = .ok r ∧
          r.sentences.length = (splitIntoSentences text).length) ∧
       ((splitIntoSentences (protectProperNouns text g).protectedText).length <
          (splitIntoSentences text).length →
        POST text g f = .internalError)) := by
  intro text g f hne
  constructor
  · intro hlen
    refine ⟨_, POST_eq_ok text g f hne hlen, ?_⟩
    exact buildRows_length _ _ _ (by rw [translateAll_length]; exact hlen)
  · intro hlen
    exact POST_eq_err text g f hne hlen

/-- Witness for C1: aligned case completes, divergent case fails. -/
theorem c1_no_fallback_witness :
    (∃ r : ApiResponse, POST "a".toList [] (fun _ => .err) = .ok r ∧
      r.sentences.length = (splitIntoSentences "a".toList).length) ∧
    POST "あ。い".toList [("c".toList, [("あ。い".toList, ⟨"X".toList, []⟩)])]
      (fun _ => .err) = .internalError := by
  constructor
  · exact (c1_no_fallback "a".toList [] (fun _ => .err) (by decide)).1 (by decide)
  · exact (c1_no_fallback "あ。い".toList
      [("c".toList, [("あ。い".toList, ⟨"X".toList, []⟩)])]
      (fun _ => .err) (by decide)).2 (by decide)

end Claims

section ProtectLemmas

theorem protectEntry_hit (st : PState) (jp : List Char) (e : GlossaryEntry)
    (h : occursIn jp st.text = true) :
    protectEntry st jp e =
      { text := replaceAll jp (phName st.idx) st.text
        pmap := st.pmap ++ [(phName st.idx, e.en)]
        found := st.found ++ [jp]
        idx := st.idx + 1 } := by
  unfold protectEntry
  rw [if_pos h]

theorem protectEntry_miss (st : PState) (jp : List Char) (e : GlossaryEntry)
    (h : occursIn jp st.text = false) : protectEntry st jp e = st := by
  unfold protectEntry
  rw [if_neg (by simp [h])]

theorem occursIn_false_of_protected {s t : List Char} (hne : s ≠ [])
    (hal : ∀ c ∈ s, phAlpha c = false) (i : Nat) :
    occursIn s (replaceAll s (phName i) t) = false := by
  rw [replaceAll_of_ne_nil _ _ hne, Bool.eq_false_iff]
  intro hc
  have ho := (occursIn_iff _ _).mp hc
  refine replaceAllPos_no_pat hne (phName_ne_nil i) ?_ t.length t le_rfl ho
  intro c hcph hcs
  have h1 := phName_alpha i c hcph
  have h2 := hal c hcs
  rw [h1] at h2
  simp at h2

theorem protectEntry_keys {st : PState} (jp : List Char) (e : GlossaryEntry)
    (h : ∀ pr ∈ st.pmap, ∃ i, pr.1 = phName i) :
    ∀ pr ∈ (protectEntry st jp e).pmap, ∃ i, pr.1 = phName i := by
  by_cases hc : occursIn jp st.text = true
  · rw [protectEntry_hit st jp e hc]
    intro pr hpr
    rcases List.mem_append.mp hpr with h1 | h2
    · exact h pr h1
    · have hpr2 : pr = (phName st.idx, e.en) := by simpa using h2
      exact ⟨st.idx, by rw [hpr2]⟩
  · rw [protectEntry_miss st jp e (by
      cases hv : occursIn jp st.text
      · rfl
      · exact absurd hv hc)]
    exact h

theorem protectCat_cons (st : PState) (p : List Char × GlossaryEntry)
    (rest : List (List Char × GlossaryEntry)) :
    protectCat st (p :: rest) = protectCat (protectEntry st p.1 p.2) rest := rfl

theorem protectCat_keys :
    ∀ cat : List (List Char × GlossaryEntry), ∀ st : PState,
      (∀ pr ∈ st.pmap, ∃ i, pr.1 = phName i) →
      ∀ pr ∈ (protectCat st cat).pmap, ∃ i, pr.1 = phName i := by
  intro cat
  induction cat with
  | nil => intro st h; exact h
  | cons p rest ih =>
    intro st h
    rw [protectCat_cons]
    exact ih _ (protectEntry_keys p.1 p.2 h)

theorem protect_keys (t : List Char) (g : Glossary) :
    ∀ pr ∈ (protectProperNouns t g).pmap, ∃ i, pr.1 = phName i := by
  suffices h : ∀ g' : Glossary, ∀ st : PState,
      (∀ pr ∈ st.pmap, ∃ i, pr.1 = phName i) →
      ∀ pr ∈ (g'.foldl (fun s c => protectCat s c.2) st).pmap, ∃ i, pr.1 = phName i by
    exact h g ⟨t, [], [], 0⟩ (by simp)
  intro g'
  induction g' with
  | nil => intro st h; exact h
  | cons cpair rest ih =>
    intro st h
    exact ih _ (protectCat_keys cpair.2 st h)

/-- Restoring with a map whose keys are placeholders with
placeholder-free, nonempty renderings eliminates every
placeholder-shaped token of the input that is a key of the map, and
creates no new ones. -/
theorem restore_no_tokens :
    ∀ m : List (List Char × List Char), ∀ T : List Char,
      (∀ pr ∈ m, ∃ i, pr.1 = phName i) →
      (∀ pr ∈ m, pr.2 ≠ [] ∧ ∀ c ∈ pr.2, phAlpha c = false) →
      (∀ n : Nat, Occurs (phName n) T → ∃ pr ∈ m, pr.1 = phName n) →
      ∀ n : Nat, ¬ Occurs (phName n) (restoreProperNouns T m) := by
  intro m
  induction m with
  | nil =>
    intro T _ _ htok n hocc
    obtain ⟨pr, hpr, _⟩ := htok n hocc
    simp at hpr
  | cons ke m' ih =>
    intro T hkeys hren htok n hocc
    obtain ⟨i, hkey⟩ := hkeys ke (List.mem_cons_self _ _)
    obtain ⟨hen_ne, hen_al⟩ := hren ke (List.mem_cons_self _ _)
    have hstep : restoreProperNouns T (ke :: m') =
        restoreProperNouns (replaceAll ke.1 ke.2 T) m' := rfl
    rw [hstep] at hocc
    have hkne : ke.1 ≠ [] := by rw [hkey]; exact phName_ne_nil i
    rw [replaceAll_of_ne_nil _ _ hkne] at hocc
    refine ih (replaceAllPos ke.1 ke.2 T)
      (fun pr hpr => hkeys pr (List.mem_cons_of_mem _ hpr))
      (fun pr hpr => hren pr (List.mem_cons_of_mem _ hpr))
      ?_ n hocc
    intro n' hocc'
    have hdisj : ∀ c ∈ ke.2, c ∉ phName n' := by
      intro c hc hcn
      have h1 := phName_alpha n' c hcn
      have h2 := hen_al c hc
      rw [h1] at h2
      simp at h2
    have hoccT : Occurs (phName n') T :=
      replaceAllPos_occurs_sub hen_ne hdisj T.length T le_rfl hocc'
    obtain ⟨pr, hpr, hpr1⟩ := htok n' hoccT
    rcases List.mem_cons.mp hpr with rfl | hpr2
    · exfalso
      have hdisj2 : ∀ c ∈ pr.2, c ∉ pr.1 := by
        intro c hc hck
        have h1 : phAlpha c = true := by
          rw [hkey] at hck
          exact phName_alpha i c hck
        have h2 := hen_al c hc
        rw [h1] at h2
        simp at h2
      have hnop := replaceAllPos_no_pat hkne hen_ne hdisj2 T.length T le_rfl
      rw [← hpr1] at hocc'
      exact hnop hocc'
    · exact ⟨pr, hpr2, hpr1⟩

end ProtectLemmas

section ClaimsTwo

/-- C2 counterexample: with vocabulary entries 田中太郎 then 太郎 (same
category), on text 田中太郎 the term 太郎 occurs in the text but is not
recorded in the applied terms, because the earlier replacement consumed
its only occurrence. -/
theorem c2_counterexample :
    occursIn "太郎".toList "田中太郎".toList = true ∧
    "太郎".toList ∉ (protectProperNouns "田中太郎".toList
      [("c".toList, [("田中太郎".toList, ⟨"Taro Tanaka".toList, []⟩),
                     ("太郎".toList, ⟨"Taro".toList, []⟩)])]).found := by
  constructor
  · decide
  · decide

/-- C2 (amended): for a vocabulary consisting of a single term `s` that
is nonempty and contains no placeholder-alphabet character, if `s`
occurs in `t` then it is recorded in the applied terms and is absent
from the protected text.  With several (possibly overlapping) terms the
guarantee holds only per processing step: an earlier replacement can
consume a later term's occurrences (then the later term is not
recorded), and a term overlapping placeholder text can survive
replacement. -/
theorem c2_protect_single :
    ∀ (t s cat : List Char) (e : GlossaryEntry),
      occursIn s t = true → s ≠ [] → (∀ c ∈ s, phAlpha c = false) →
      (protectProperNouns t [(cat, [(s, e)])]).found = [s] ∧
      occursIn s (protectProperNouns t [(cat, [(s, e)])]).protectedText = false := by
  intro t s cat e hocc hne hal
  have hfold : protectProperNouns t [(cat, [(s, e)])] =
      ⟨(protectEntry ⟨t, [], [], 0⟩ s e).text,
       (protectEntry ⟨t, [], [], 0⟩ s e).pmap,
       (protectEntry ⟨t, [], [], 0⟩ s e).found⟩ := rfl
  rw [hfold, protectEntry_hit ⟨t, [], [], 0⟩ s e hocc]
  exact ⟨rfl, occursIn_false_of_protected hne hal 0⟩

/-- Witness for C2 at a concrete text and single-term vocabulary. -/
theorem c2_protect_single_witness :
    (protectProperNouns "ab".toList
      [("c".toList, [("a".toList, ⟨"X".toList, []⟩)])]).found = ["a".toList] ∧
    occursIn "a".toList (protectProperNouns "ab".toList
      [("c".toList, [("a".toList, ⟨"X".toList, []⟩)])]).protectedText = false :=
  c2_protect_single "ab".toList "a".toList "c".toList ⟨"X".toList, []⟩
    (by decide) (by decide) (by decide)

/-- C8 counterexample: the term "0" registered in two categories with
renderings "X" and "Y" is applied twice on text "0" (its second
occurrence is inside the first placeholder), so both renderings enter
the placeholder map — not exactly one. -/
theorem c8_counterexample :
    (protectProperNouns "0".toList
      [("a".toList, [("0".toList, ⟨"X".toList, []⟩)]),
       ("b".toList, [("0".toList, ⟨"Y".toList, []⟩)])]).found
      = ["0".toList, "0".toList] ∧
    (protectProperNouns "0".toList
      [("a".toList, [("0".toList, ⟨"X".toList, []⟩)]),
       ("b".toList, [("0".toList, ⟨"Y".toList, []⟩)])]).pmap
      = [("__PN_0__".toList, "X".toList), ("__PN_1__".toList, "Y".toList)] := by
  constructor
  · decide
  · decide

/-- C8 (amended): a term registered in two categories resolves to the
first category's rendering alone, provided the term contains no
placeholder-alphabet character (otherwise it can re-match inside the
minted placeholder and both renderings are applied); determinism itself
holds because every pipeline step is a pure function of its inputs. -/
theorem c8_first_match :
    ∀ (t s : List Char) (e1 e2 : GlossaryEntry) (ca cb : List Char),
      occursIn s t = true → s ≠ [] → (∀ c ∈ s, phAlpha c = false) →
      protectProperNouns t [(ca, [(s, e1)]), (cb, [(s, e2)])] =
        ⟨replaceAll s (phName 0) t, [(phName 0, e1.en)], [s]⟩ := by
  intro t s e1 e2 ca cb hocc hne hal
  have hfold : protectProperNouns t [(ca, [(s, e1)]), (cb, [(s, e2)])] =
      ⟨(protectEntry (protectEntry ⟨t, [], [], 0⟩ s e1) s e2).text,
       (protectEntry (protectEntry ⟨t, [], [], 0⟩ s e1) s e2).pmap,
       (protectEntry (protectEntry ⟨t, [], [], 0⟩ s e1) s e2).found⟩ := rfl
  rw [hfold, protectEntry_hit ⟨t, [], [], 0⟩ s e1 hocc]
  rw [protectEntry_miss _ s e2 (occursIn_false_of_protected hne hal 0)]
  rfl

/-- Witness for C8 at a concrete text and two-category vocabulary. -/
theorem c8_first_match_witness :
    protectProperNouns "ab".toList
      [("u".toList, [("a".toList, ⟨"X".toList, []⟩)]),
       ("v".toList, [("a".toList, ⟨"Y".toList, []⟩)])] =
      ⟨replaceAll "a".toList (phName 0) "ab".toList,
       [(phName 0, "X".toList)], ["a".toList]⟩ :=
  c8_first_match "ab".toList "a".toList ⟨"X".toList, []⟩ ⟨"Y".toList, []⟩
    "u".toList "v".toList (by decide) (by decide) (by decide)

/-- C3 counterexample: input text that itself contains the token
__PN_9__ with an empty vocabulary yields an empty placeholder map; the
(fallback) translation concatenation is the protected text itself, and
restore leaves the placeholder-shaped token in place. -/
theorem c3_counterexample :
    occursIn (phName 9)
      (restoreProperNouns "a__PN_9__".toList
        (protectProperNouns "a__PN_9__".toList []).pmap) = true := by
  decide

/-- C3 (amended): restore leaves no placeholder-shaped token provided
every placeholder-shaped token of the translated concatenation is a key
of the map produced by protect and every rendering in that map is
nonempty and free of placeholder-alphabet characters; the unrestricted
claim fails when the input text (or the model output) carries a token
that is not a key. -/
theorem c3_restore_no_residual :
    ∀ (t : List Char) (g : Glossary) (T : List Char),
      (∀ pr ∈ (protectProperNouns t g).pmap,
        pr.2 ≠ [] ∧ ∀ c ∈ pr.2, phAlpha c = false) →
      (∀ n : Nat, Occurs (phName n) T →
        ∃ pr ∈ (protectProperNouns t g).pmap, pr.1 = phName n) →
      ∀ n : Nat, ¬ Occurs (phName n)
        (restoreProperNouns T (protectProperNouns t g).pmap) := by
  intro t g T hren htok
  exact restore_no_tokens _ T (protect_keys t g) hren htok

/-- Witness for C3: a produced one-entry map and a token-free
translation. -/
theorem c3_restore_no_residual_witness :
    ¬ Occurs (phName 0)
      (restoreProperNouns "q".toList
        (protectProperNouns "ab".toList
          [("c".toList, [("a".toList, ⟨"B".toList, []⟩)])]).pmap) := by
  refine c3_restore_no_residual "ab".toList
    [("c".toList, [("a".toList, ⟨"B".toList, []⟩)])] "q".toList (by decide) ?_ 0
  intro n hocc
  exfalso
  have hP := occurs_chars hocc 'P' (phName_mem_P n)
  have hq : ('P' : Char) ∈ "q".toList := hP
  exact absurd hq (by decide)

end ClaimsTwo

section SegmentLemmas

theorem punct_cases {c : Char} (h : isTermPunct c = true) :
    c = '。' ∨ c = '！' ∨ c = '？' := by
  have h2 := h
  simp only [isTermPunct, Bool.or_eq_true, decide_eq_true_eq] at h2
  tauto

theorem punct_boundary {c : Char} (h : isTermPunct c = true) :
    isBoundaryCh c = true := by
  rcases punct_cases h with rfl | rfl | rfl <;> decide

theorem punct_not_ws {c : Char} (h : isTermPunct c = true) :
    isWsCh c = false := by
  rcases punct_cases h with rfl | rfl | rfl <;> decide

theorem not_punct_of_not_boundary {c : Char} (h : isBoundaryCh c = false) :
    isTermPunct c = false := by
  cases hv : isTermPunct c
  · rfl
  · rw [punct_boundary hv] at h
    simp at h

theorem isPunctRun_false_of_nonboundary {t : List Char} (hne : t ≠ [])
    (hbnd : ∀ c ∈ t, isBoundaryCh c = false) : isPunctRun t = false := by
  unfold isPunctRun
  cases t with
  | nil => exact absurd rfl hne
  | cons c0 t' =>
    have h0 : isTermPunct c0 = false :=
      not_punct_of_not_boundary (hbnd c0 (List.mem_cons_self _ _))
    simp [List.all_cons, h0]

end SegmentLemmas

section ClaimSix

/-- C6 counterexample: the string "a " has no terminal punctuation and
no newline, yet the segmenter trims it, so the output is ["a"], not
["a "]. -/
theorem c6_counterexample :
    (∀ c ∈ "a ".toList, isBoundaryCh c = false) ∧
    splitIntoSentences "a ".toList ≠ ["a ".toList] := by
  constructor
  · decide
  · decide

/-- C6 (amended): the segmenter is idempotent on a single already-clean
sentence: for nonempty `t` with no boundary characters (。！？ or
newline) and no leading or trailing whitespace (`trim t = t`),
optionally followed by a trailing run `p` of 。！？, the segmenter
returns the one-element list `[t ++ p]`.  Without the trim condition
the claim fails (surrounding whitespace is stripped), and a trailing
newline is likewise dropped rather than preserved. -/
theorem c6_segment_single :
    ∀ t p : List Char, t ≠ [] → (∀ c ∈ t, isBoundaryCh c = false) →
      trim t = t → (p = [] ∨ (p ≠ [] ∧ ∀ c ∈ p, isTermPunct c = true)) →
      splitIntoSentences (t ++ p) = [t ++ p] := by
  intro t p hne hbnd htrim hp
  have hkt : (!t.isEmpty) = true := by simp [list_ne_nil_isEmpty hne]
  have hkeept : (!(trim t).isEmpty) = true := by rw [htrim]; exact hkt
  have hprt : isPunctRun t = false := isPunctRun_false_of_nonboundary hne hbnd
  rcases hp with rfl | ⟨hpne, hpp⟩
  · rw [List.append_nil]
    have h1 : chunkBy isBoundaryCh t = [t] := by
      have h3 : chunkBy isBoundaryCh (t ++ []) = t :: chunkBy isBoundaryCh [] :=
        chunk_append_run isBoundaryCh false t [] hne hbnd (Or.inl rfl)
      rwa [List.append_nil, chunkBy_nil] at h3
    show ((mergeFrags [] (((chunkBy isBoundaryCh t).filter
        (fun s => !(trim s).isEmpty)).map trim)).filter (fun s => !s.isEmpty)) = [t]
    rw [h1, List.filter_cons, if_pos hkeept, List.filter_nil]
    simp only [List.map, htrim]
    have hm : mergeFrags [] [t] = [t] := by
      show (if isPunctRun t then mergeFrags (addPunct [] t) []
        else mergeFrags ([] ++ [t]) []) = [t]
      rw [if_neg (by simp [hprt])]
      rfl
    rw [hm, List.filter_cons, if_pos hkt, List.filter_nil]
  · have hkp : (!p.isEmpty) = true := by simp [list_ne_nil_isEmpty hpne]
    have hppb : ∀ c ∈ p, isBoundaryCh c = true :=
      fun c hc => punct_boundary (hpp c hc)
    have h2 : chunkBy isBoundaryCh p = [p] := by
      have h3 : chunkBy isBoundaryCh (p ++ []) = p :: chunkBy isBoundaryCh [] :=
        chunk_append_run isBoundaryCh true p [] hpne hppb (Or.inl rfl)
      rwa [List.append_nil, chunkBy_nil] at h3
    have h1 : chunkBy isBoundaryCh (t ++ p) = [t, p] := by
      have h4 : chunkBy isBoundaryCh (t ++ p) = t :: chunkBy isBoundaryCh p := by
        refine chunk_append_run isBoundaryCh false t p hne hbnd (Or.inr ?_)
        cases p with
        | nil => exact absurd rfl hpne
        | cons d ds =>
          show isBoundaryCh d = !false
          rw [hppb d (List.mem_cons_self _ _)]
          rfl
      rw [h4, h2]
    have htrimp : trim p = p := trim_eq_self (fun c hc => punct_not_ws (hpp c hc))
    have hkeepp : (!(trim p).isEmpty) = true := by rw [htrimp]; exact hkp
    have hprp : isPunctRun p = true := by
      unfold isPunctRun
      rw [list_ne_nil_isEmpty hpne]
      simp only [Bool.not_false, Bool.true_and]
      exact List.all_eq_true.mpr hpp
    show ((mergeFrags [] (((chunkBy isBoundaryCh (t ++ p)).filter
        (fun s => !(trim s).isEmpty)).map trim)).filter (fun s => !s.isEmpty)) = [t ++ p]
    rw [h1, List.filter_cons, if_pos hkeept, List.filter_cons, if_pos hkeepp,
      List.filter_nil]
    simp only [List.map, htrim, htrimp]
    have hmerge : mergeFrags [] [t, p] = [t ++ p] := by
      show (if isPunctRun t then mergeFrags (addPunct [] t) [p]
        else mergeFrags ([] ++ [t]) [p]) = [t ++ p]
      rw [if_neg (by simp [hprt])]
      show (if isPunctRun p then mergeFrags (addPunct ([] ++ [t]) p) []
        else mergeFrags (([] ++ [t]) ++ [p]) []) = [t ++ p]
      rw [if_pos hprp]
      rfl
    rw [hmerge]
    have hne2 : (!(t ++ p).isEmpty) = true := by
      cases t with
      | nil => exact absurd rfl hne
      | cons a b => rfl
    rw [List.filter_cons, if_pos hne2, List.filter_nil]

/-- Witness for C6: a clean sentence with a trailing full stop. -/
theorem c6_segment_single_witness :
    splitIntoSentences ("a".toList ++ "。".toList) =
      ["a".toList ++ "。".toList] :=
  c6_segment_single "a".toList "。".toList (by decide) (by decide) (by decide)
    (Or.inr ⟨by decide, by decide⟩)

end ClaimSix

section AlignmentLemmas

theorem headD_mem {l : List Char} (d : Char) (h : l ≠ []) : l.headD d ∈ l := by
  cases l with
  | nil => exact absurd rfl h
  | cons c rest => exact List.mem_cons_self _ _

theorem no_prefix_of_head_not_mem {pat : List Char} {c : Char} {z : List Char}
    (hc : c ∉ pat) :
    (!pat.isEmpty && pat.isPrefixOf (c :: z)) = false := by
  cases pat with
  | nil => rfl
  | cons p0 pt =>
    simp only [List.isEmpty_cons, Bool.not_false, Bool.true_and]
    cases hpc : (p0 == c) with
    | false => simp [List.isPrefixOf, hpc]
    | true =>
      exfalso
      have hp0c : p0 = c := beq_iff_eq.mp hpc
      rw [hp0c] at hc
      exact hc (by rw [← hp0c] at hc ⊢; exact List.mem_cons_self _ _)

theorem runTr_eq_self {pat rep g : List Char}
    (hval : runVal isBoundaryCh g = true) : runTr pat rep g = g := by
  unfold runTr
  rw [if_pos hval]

theorem runTr_eq_repl {pat rep g : List Char}
    (hval : runVal isBoundaryCh g = false) :
    runTr pat rep g = replaceAllPos pat rep g := by
  unfold runTr
  rw [if_neg (by simp [hval])]

/-- A replacement pass walks over a block whose characters do not occur
in the pattern without touching it. -/
theorem repl_skip_append (pat rep : List Char) :
    ∀ b w : List Char, (∀ c ∈ b, c ∉ pat) →
      replaceAllPos pat rep (b ++ w) = b ++ replaceAllPos pat rep w := by
  intro b
  induction b with
  | nil => intro w _; rfl
  | cons c b' ih =>
    intro w hb
    rw [List.cons_append, replaceAllPos_cons,
      if_neg (by simp [no_prefix_of_head_not_mem (hb c (List.mem_cons_self _ _))]),
      ih w (fun x hx => hb x (List.mem_cons_of_mem _ hx))]
    rfl

/-- A replacement pass distributes over an append when a match cannot
span the seam (the right part is empty or starts with a character not
in the pattern). -/
theorem repl_split_at_block (pat rep : List Char) (hpat : pat ≠ []) :
    ∀ n : Nat, ∀ a w : List Char, a.length ≤ n →
      (w = [] ∨ ∃ d ds, w = d :: ds ∧ d ∉ pat) →
      replaceAllPos pat rep (a ++ w) =
        replaceAllPos pat rep a ++ replaceAllPos pat rep w := by
  intro n
  induction n with
  | zero =>
    intro a w ha _
    have h0 : a = [] := List.length_eq_zero.mp (Nat.le_zero.mp ha)
    subst h0
    rfl
  | succ n ih =>
    intro a w ha hw
    cases a with
    | nil => rfl
    | cons c a' =>
      rw [List.cons_append, replaceAllPos_cons pat rep c (a' ++ w),
        replaceAllPos_cons pat rep c a']
      by_cases hc : (!pat.isEmpty && pat.isPrefixOf (c :: (a' ++ w))) = true
      · have hcsplit : (!pat.isEmpty) = true ∧ pat.isPrefixOf (c :: (a' ++ w)) = true := by
          simpa using hc
        have hbeg : begins pat ((c :: a') ++ w) := by
          rw [List.cons_append]
          exact (begins_iff _ _).mp hcsplit.2
        have hple : pat.length ≤ (c :: a').length := by
          by_contra hgt
          push_neg at hgt
          obtain ⟨e, hpe, hene, hbe⟩ := begins_split_long hbeg hgt
          rcases hw with rfl | ⟨d, ds, rfl, hdp⟩
          · exact hene (begins_nil hbe)
          · cases e with
            | nil => exact hene rfl
            | cons e0 e' =>
              obtain ⟨t', ht'⟩ := hbe
              injection ht' with h1 _
              apply hdp
              rw [h1, hpe]
              exact List.mem_cons_of_mem _
                (List.mem_append.mpr (Or.inr (List.mem_cons_self _ _)))
        have hbega : begins pat (c :: a') := begins_of_begins_append hbeg hple
        have hc2 : (!pat.isEmpty && pat.isPrefixOf (c :: a')) = true := by
          have h4 := (begins_iff _ _).mpr hbega
          simp [h4, hcsplit.1]
        rw [if_pos hc, if_pos hc2]
        have hdrop : (c :: (a' ++ w)).drop pat.length =
            (c :: a').drop pat.length ++ w := by
          have h3 : (c :: (a' ++ w)) = (c :: a') ++ w := by rw [List.cons_append]
          rw [h3]
          exact List.drop_append_of_le_length hple
        rw [hdrop]
        have hlen2 : ((c :: a').drop pat.length).length ≤ n := by
          have hpl : 1 ≤ pat.length := by
            cases pat with
            | nil => exact absurd rfl hpat
            | cons _ _ => simp
          simp only [List.length_drop, List.length_cons]
          simp only [List.length_cons] at ha
          omega
        rw [ih _ w hlen2 hw, List.append_assoc]
      · have hc2 : ¬((!pat.isEmpty && pat.isPrefixOf (c :: a')) = true) := by
          intro hcc
          apply hc
          have hccsplit : (!pat.isEmpty) = true ∧ pat.isPrefixOf (c :: a') = true := by
            simpa using hcc
          have h2 := (begins_iff _ _).mp hccsplit.2
          have h3 := begins_append_right w h2
          rw [List.cons_append] at h3
          have h4 := (begins_iff _ _).mpr h3
          simp [h4, hccsplit.1]
        rw [if_neg hc, if_neg hc2,
          ih a' w (by simp only [List.length_cons] at ha; omega) hw]
        rfl

/-- One replacement pass over a flattened run list equals applying the
per-run transformation and flattening, when the pattern contains no
boundary character. -/
theorem repl_flatten (pat rep : List Char) (hpat : pat ≠ [])
    (hpb : ∀ c ∈ pat, isBoundaryCh c = false) :
    ∀ rs : List (List Char), ChunksOk isBoundaryCh rs →
      replaceAllPos pat rep rs.flatten = (rs.map (runTr pat rep)).flatten := by
  intro rs h
  induction h with
  | nil => rfl
  | cons g gs hne hhom halt htail ih =>
    simp only [List.flatten_cons, List.map_cons]
    cases hval : runVal isBoundaryCh g with
    | true =>
      have hskip : ∀ c ∈ g, c ∉ pat := by
        intro c hcg hcp
        have h1 : isBoundaryCh c = true := by rw [hhom c hcg, hval]
        rw [hpb c hcp] at h1
        simp at h1
      rw [repl_skip_append pat rep g gs.flatten hskip, ih,
        runTr_eq_self hval]
    | false =>
      have hw : gs.flatten = [] ∨ ∃ d ds, gs.flatten = d :: ds ∧ d ∉ pat := by
        rcases halt with rfl | hv2
        · left; rfl
        · cases htail with
          | nil => left; rfl
          | cons h2 t2 hne2 hhom2 halt2 htail2 =>
            cases h2 with
            | nil => exact absurd rfl hne2
            | cons hc ht =>
              right
              refine ⟨hc, ht ++ t2.flatten, by simp, ?_⟩
              intro hcp
              have h1 : isBoundaryCh hc = runVal isBoundaryCh (hc :: ht) :=
                hhom2 hc (List.mem_cons_self _ _)
              have h3 : runVal isBoundaryCh (hc :: ht) = !runVal isBoundaryCh g := by
                simpa using hv2
              rw [h3, hval] at h1
              rw [hpb hc hcp] at h1
              simp at h1
      rw [repl_split_at_block pat rep hpat g.length g gs.flatten le_rfl hw, ih,
        runTr_eq_repl hval]

theorem runTr_preserve (pat rep : List Char) (hrep : rep ≠ [])
    (hrb : ∀ c ∈ rep, isBoundaryCh c = false) (g : List Char) (hne : g ≠ [])
    (hhom : ∀ c ∈ g, isBoundaryCh c = runVal isBoundaryCh g) :
    runTr pat rep g ≠ [] ∧
    (∀ c ∈ runTr pat rep g, isBoundaryCh c = runVal isBoundaryCh g) ∧
    runVal isBoundaryCh (runTr pat rep g) = runVal isBoundaryCh g := by
  cases hval : runVal isBoundaryCh g with
  | true =>
    rw [runTr_eq_self hval]
    refine ⟨hne, fun c hc => ?_, hval⟩
    rw [hhom c hc]
    exact hval
  | false =>
    rw [runTr_eq_repl hval]
    have hne2 := replaceAllPos_ne_nil pat hrep g hne
    have hchars : ∀ c ∈ replaceAllPos pat rep g, isBoundaryCh c = false := by
      intro c hc
      rcases replaceAllPos_chars pat rep g.length g le_rfl c hc with h1 | h1
      · rw [hhom c h1, hval]
      · exact hrb c h1
    refine ⟨hne2, fun c hc => hchars c hc, ?_⟩
    exact hchars _ (headD_mem ' ' hne2)

theorem chunksOk_map_runTr (pat rep : List Char) (hrep : rep ≠ [])
    (hrb : ∀ c ∈ rep, isBoundaryCh c = false) :
    ∀ rs : List (List Char), ChunksOk isBoundaryCh rs →
      ChunksOk isBoundaryCh (rs.map (runTr pat rep)) := by
  intro rs h
  induction h with
  | nil => exact ChunksOk.nil
  | cons g gs hne hhom halt htail ih =>
    simp only [List.map_cons]
    obtain ⟨hne', hhom', hval'⟩ := runTr_preserve pat rep hrep hrb g hne hhom
    have halt' : gs.map (runTr pat rep) = [] ∨
        runVal isBoundaryCh ((gs.map (runTr pat rep)).headD []) =
          !runVal isBoundaryCh (runTr pat rep g) := by
      rcases halt with rfl | hv2
      · left; rfl
      · cases htail with
        | nil => left; rfl
        | cons h2 t2 hne2 hhom2 halt2 htail2 =>
          right
          simp only [List.map_cons, List.headD_cons]
          obtain ⟨_, _, hval2⟩ := runTr_preserve pat rep hrep hrb h2 hne2 hhom2
          rw [hval2, hval']
          simpa using hv2
    exact ChunksOk.cons _ _ hne'
      (fun c hc => by rw [hval']; exact hhom' c hc) halt' ih

theorem runTr_keep (pat rep : List Char)
    (hpw : ∃ c ∈ pat, isWsCh c = false) (hrw : ∃ c ∈ rep, isWsCh c = false) :
    ∀ g : List Char,
      (trim (runTr pat rep g)).isEmpty = (trim g).isEmpty := by
  intro g
  cases hval : runVal isBoundaryCh g with
  | true => rw [runTr_eq_self hval]
  | false =>
    rw [runTr_eq_repl hval]
    by_cases hws : ∀ c ∈ g, isWsCh c = true
    · have hno : occursIn pat g = false := by
        rw [Bool.eq_false_iff]
        intro hc
        obtain ⟨cw, hcw, hcwf⟩ := hpw
        have h1 := occurs_chars ((occursIn_iff _ _).mp hc) cw hcw
        rw [hws cw h1] at hcwf
        simp at hcwf
      rw [replaceAllPos_no_match pat rep g.length g le_rfl hno]
    · push_neg at hws
      obtain ⟨cg, hcg1, hcg2⟩ := hws
      have hex : ∃ c ∈ g, isWsCh c = false := by
        refine ⟨cg, hcg1, ?_⟩
        cases hv : isWsCh cg
        · rfl
        · exact absurd hv hcg2
      obtain ⟨cr, hcr1, hcr2⟩ :=
        replaceAllPos_ex (fun c => isWsCh c = false) hrw g.length g le_rfl hex
      have h1 : (trim g).isEmpty = false := by
        rw [List.isEmpty_eq_false]
        intro he
        obtain ⟨cw, hcw1, hcw2⟩ := hex
        rw [(trim_empty_iff g).mp he cw hcw1] at hcw2
        simp at hcw2
      have h2 : (trim (replaceAllPos pat rep g)).isEmpty = false := by
        rw [List.isEmpty_eq_false]
        intro he
        rw [(trim_empty_iff _).mp he cr hcr1] at hcr2
        simp at hcr2
      rw [h1, h2]

theorem runTr_count_pred (pat rep : List Char)
    (hpw : ∃ c ∈ pat, isWsCh c = false)
    (hrb : ∀ c ∈ rep, isBoundaryCh c = false)
    (hrw : ∃ c ∈ rep, isWsCh c = false)
    (g : List Char)
    (hhom : ∀ c ∈ g, isBoundaryCh c = runVal isBoundaryCh g) :
    ((!isPunctRun (trim (runTr pat rep g))) && (!(trim (runTr pat rep g)).isEmpty)) =
      ((!isPunctRun (trim g)) && (!(trim g).isEmpty)) := by
  cases hval : runVal isBoundaryCh g with
  | true => rw [runTr_eq_self hval]
  | false =>
    have hkeep := runTr_keep pat rep hpw hrw g
    by_cases hemp : (trim g).isEmpty = true
    · have hemp2 : (trim (runTr pat rep g)).isEmpty = true := by
        rw [hkeep, hemp]
      rw [hemp, hemp2]
      simp
    · have hemp' : (trim g).isEmpty = false := by
        cases hv : (trim g).isEmpty
        · rfl
        · exact absurd hv hemp
      have hemp2 : (trim (runTr pat rep g)).isEmpty = false := by
        rw [hkeep, hemp']
      have hp1 : isPunctRun (trim g) = false := by
        apply isPunctRun_false_of_nonboundary
        · rw [List.isEmpty_eq_false] at hemp'
          exact hemp'
        · intro c hc
          rw [hhom c (mem_trim hc), hval]
      have hp2 : isPunctRun (trim (runTr pat rep g)) = false := by
        apply isPunctRun_false_of_nonboundary
        · rw [List.isEmpty_eq_false] at hemp2
          exact hemp2
        · intro c hc
          have hc2 := mem_trim hc
          rw [runTr_eq_repl hval] at hc2
          rcases replaceAllPos_chars pat rep g.length g le_rfl c hc2 with h1 | h1
          · rw [hhom c h1, hval]
          · exact hrb c h1
      rw [hp1, hp2, hemp', hemp2]

/-- A single replacement whose pattern and replacement contain no
boundary character and at least one non-whitespace character each
preserves the sentence count. -/
theorem segLen_replaceAllPos (pat rep x : List Char) (hpat : pat ≠ [])
    (hpb : ∀ c ∈ pat, isBoundaryCh c = false)
    (hpw : ∃ c ∈ pat, isWsCh c = false)
    (hrep : rep ≠ [])
    (hrb : ∀ c ∈ rep, isBoundaryCh c = false)
    (hrw : ∃ c ∈ rep, isWsCh c = false) :
    (splitIntoSentences (replaceAllPos pat rep x)).length =
      (splitIntoSentences x).length := by
  have hok := chunksOk_chunkBy isBoundaryCh x.length x le_rfl
  have hx : (chunkBy isBoundaryCh x).flatten = x :=
    chunkBy_flatten _ x.length x le_rfl
  have h1 : replaceAllPos pat rep x =
      ((chunkBy isBoundaryCh x).map (runTr pat rep)).flatten := by
    conv_lhs => rw [← hx]
    exact repl_flatten pat rep hpat hpb _ hok
  have hok2 := chunksOk_map_runTr pat rep hrep hrb _ hok
  have h2 : chunkBy isBoundaryCh (replaceAllPos pat rep x) =
      (chunkBy isBoundaryCh x).map (runTr pat rep) := by
    rw [h1]
    exact chunkBy_flatten_of_ok _ _ hok2
  rw [segLen_formula, segLen_formula, h2,
    List.countP_filter, List.countP_filter, List.countP_map]
  apply countP_ext
  intro g hg
  obtain ⟨_, hhom⟩ := chunksOk_mem hok g hg
  exact runTr_count_pred pat rep hpw hrb hrw g hhom

theorem segLen_replaceAll (jp : List Char) (i : Nat) (x : List Char)
    (hb : ∀ c ∈ jp, isBoundaryCh c = false)
    (hw : ∃ c ∈ jp, isWsCh c = false) :
    (splitIntoSentences (replaceAll jp (phName i) x)).length =
      (splitIntoSentences x).length := by
  have hne : jp ≠ [] := by
    obtain ⟨c, hc, _⟩ := hw
    intro he
    rw [he] at hc
    simp at hc
  rw [replaceAll_of_ne_nil _ _ hne]
  exact segLen_replaceAllPos jp (phName i) x hne hb hw
    (phName_ne_nil i) (phName_not_boundary i) (phName_has_nonws i)

theorem protectEntry_segLen (st : PState) (jp : List Char) (e : GlossaryEntry)
    (hb : ∀ c ∈ jp, isBoundaryCh c = false)
    (hw : ∃ c ∈ jp, isWsCh c = false) :
    (splitIntoSentences (protectEntry st jp e).text).length =
      (splitIntoSentences st.text).length := by
  by_cases hc : occursIn jp st.text = true
  · rw [protectEntry_hit st jp e hc]
    exact segLen_replaceAll jp st.idx st.text hb hw
  · rw [protectEntry_miss st jp e (by
      cases hv : occursIn jp st.text
      · rfl
      · exact absurd hv hc)]

theorem protectCat_segLen :
    ∀ cat : List (List Char × GlossaryEntry), ∀ st : PState,
      (∀ pr ∈ cat, (∀ c ∈ pr.1, isBoundaryCh c = false) ∧
        (∃ c ∈ pr.1, isWsCh c = false)) →
      (splitIntoSentences (protectCat st cat).text).length =
        (splitIntoSentences st.text).length := by
  intro cat
  induction cat with
  | nil => intro st _; rfl
  | cons p rest ih =>
    intro st h
    rw [protectCat_cons]
    obtain ⟨hb, hw⟩ := h p (List.mem_cons_self _ _)
    rw [ih _ (fun pr hpr => h pr (List.mem_cons_of_mem _ hpr)),
      protectEntry_segLen st p.1 p.2 hb hw]

end AlignmentLemmas

section ScriptLemmas

theorem applyScript_nil (b : List Char) : applyScript [] b = b := rfl

theorem applyScript_cons (p : List Char × List Char)
    (sc : List (List Char × List Char)) (b : List Char) :
    applyScript (p :: sc) b = applyScript sc (replaceAll p.1 p.2 b) := rfl

theorem applyScript_append (sc1 sc2 : List (List Char × List Char))
    (b : List Char) :
    applyScript (sc1 ++ sc2) b = applyScript sc2 (applyScript sc1 b) :=
  List.foldl_append _ _ _ _

theorem scriptFrom_append :
    ∀ l : List (List Char), ∀ k : Nat, ∀ x : List Char,
      scriptFrom k (l ++ [x]) = scriptFrom k l ++ [(x, phName (k + l.length))] := by
  intro l
  induction l with
  | nil =>
    intro k x
    simp [scriptFrom]
  | cons j l' ih =>
    intro k x
    show (j, phName k) :: scriptFrom (k + 1) (l' ++ [x]) = _
    rw [ih (k + 1) x]
    show _ = (j, phName k) :: (scriptFrom (k + 1) l' ++ [(x, phName (k + (l'.length + 1)))])
    have harith : k + 1 + l'.length = k + (l'.length + 1) := by omega
    rw [harith]

theorem scriptFrom_mem :
    ∀ l : List (List Char), ∀ k : Nat, ∀ pr ∈ scriptFrom k l,
      pr.1 ∈ l ∧ ∃ i : Nat, pr.2 = phName i := by
  intro l
  induction l with
  | nil => intro k pr hpr; simp [scriptFrom] at hpr
  | cons j l' ih =>
    intro k pr hpr
    rcases List.mem_cons.mp hpr with rfl | h2
    · exact ⟨List.mem_cons_self _ _, k, rfl⟩
    · obtain ⟨h3, h4⟩ := ih (k + 1) pr h2
      exact ⟨List.mem_cons_of_mem _ h3, h4⟩

theorem protectEntry_script {st : PState} (jp : List Char) (e : GlossaryEntry)
    (t0 : List Char) (h1 : st.idx = st.found.length)
    (h2 : st.text = applyScript (scriptFrom 0 st.found) t0) :
    (protectEntry st jp e).idx = (protectEntry st jp e).found.length ∧
    (protectEntry st jp e).text =
      applyScript (scriptFrom 0 (protectEntry st jp e).found) t0 := by
  by_cases hc : occursIn jp st.text = true
  · rw [protectEntry_hit st jp e hc]
    constructor
    · show st.idx + 1 = (st.found ++ [jp]).length
      rw [h1]
      simp
    · show replaceAll jp (phName st.idx) st.text =
        applyScript (scriptFrom 0 (st.found ++ [jp])) t0
      rw [scriptFrom_append st.found 0 jp, applyScript_append,
        ← h2, h1, Nat.zero_add]
      rfl
  · rw [protectEntry_miss st jp e (by
      cases hv : occursIn jp st.text
      · rfl
      · exact absurd hv hc)]
    exact ⟨h1, h2⟩

theorem protectCat_script :
    ∀ cat : List (List Char × GlossaryEntry), ∀ st : PState, ∀ t0 : List Char,
      st.idx = st.found.length →
      st.text = applyScript (scriptFrom 0 st.found) t0 →
      (protectCat st cat).idx = (protectCat st cat).found.length ∧
      (protectCat st cat).text =
        applyScript (scriptFrom 0 (protectCat st cat).found) t0 := by
  intro cat
  induction cat with
  | nil => intro st t0 h1 h2; exact ⟨h1, h2⟩
  | cons p rest ih =>
    intro st t0 h1 h2
    rw [protectCat_cons]
    obtain ⟨h3, h4⟩ := protectEntry_script p.1 p.2 t0 h1 h2
    exact ih _ t0 h3 h4

theorem protect_script_inv (t : List Char) (g : Glossary) :
    (protectProperNouns t g).protectedText =
      applyScript (protectScript t g) t := by
  suffices h : ∀ g' : Glossary, ∀ st : PState,
      st.idx = st.found.length →
      st.text = applyScript (scriptFrom 0 st.found) t →
      (g'.foldl (fun s c => protectCat s c.2) st).idx =
        (g'.foldl (fun s c => protectCat s c.2) st).found.length ∧
      (g'.foldl (fun s c => protectCat s c.2) st).text =
        applyScript (scriptFrom 0
          (g'.foldl (fun s c => protectCat s c.2) st).found) t by
    exact (h g ⟨t, [], [], 0⟩ rfl rfl).2
  intro g'
  induction g' with
  | nil => intro st h1 h2; exact ⟨h1, h2⟩
  | cons cpair rest ih =>
    intro st h1 h2
    rw [List.foldl_cons]
    obtain ⟨h3, h4⟩ := protectCat_script cpair.2 st t h1 h2
    exact ih _ h3 h4

theorem protectEntry_found_Q (P : List Char → Prop) {st : PState}
    (jp : List Char) (e : GlossaryEntry) (hjp : P jp)
    (h : ∀ x ∈ st.found, P x) :
    ∀ x ∈ (protectEntry st jp e).found, P x := by
  by_cases hc : occursIn jp st.text = true
  · rw [protectEntry_hit st jp e hc]
    intro x hx
    rcases List.mem_append.mp hx with h1 | h2
    · exact h x h1
    · have hx2 : x = jp := by simpa using h2
      rw [hx2]
      exact hjp
  · rw [protectEntry_miss st jp e (by
      cases hv : occursIn jp st.text
      · rfl
      · exact absurd hv hc)]
    exact h

theorem protectCat_found_Q (P : List Char → Prop) :
    ∀ cat : List (List Char × GlossaryEntry), ∀ st : PState,
      (∀ pr ∈ cat, P pr.1) → (∀ x ∈ st.found, P x) →
      ∀ x ∈ (protectCat st cat).found, P x := by
  intro cat
  induction cat with
  | nil => intro st _ h; exact h
  | cons p rest ih =>
    intro st hcat h
    rw [protectCat_cons]
    exact ih _ (fun pr hpr => hcat pr (List.mem_cons_of_mem _ hpr))
      (protectEntry_found_Q P p.1 p.2 (hcat p (List.mem_cons_self _ _)) h)

theorem protect_found_Q (P : List Char → Prop) (t : List Char) (g : Glossary)
    (hg : ∀ cat ∈ g, ∀ pr ∈ cat.2, P pr.1) :
    ∀ x ∈ (protectProperNouns t g).found, P x := by
  suffices h : ∀ g' : Glossary, ∀ st : PState,
      (∀ cat ∈ g', ∀ pr ∈ cat.2, P pr.1) → (∀ x ∈ st.found, P x) →
      ∀ x ∈ (g'.foldl (fun s c => protectCat s c.2) st).found, P x by
    exact h g ⟨t, [], [], 0⟩ hg (by simp)
  intro g'
  induction g' with
  | nil => intro st _ h; exact h
  | cons cpair rest ih =>
    intro st hg' h
    exact ih _ (fun cat hcat => hg' cat (List.mem_cons_of_mem _ hcat))
      (protectCat_found_Q P cpair.2 st
        (fun pr hpr => hg' cpair (List.mem_cons_self _ _) pr hpr) h)

theorem protectScript_ok (t : List Char) (g : Glossary)
    (hg : ∀ cat ∈ g, ∀ pr ∈ cat.2, (∀ c ∈ pr.1, isBoundaryCh c = false) ∧
      (∃ c ∈ pr.1, isWsCh c = false)) :
    ScriptOk (protectScript t g) := by
  intro pr hpr
  obtain ⟨h1, h2⟩ := scriptFrom_mem _ 0 pr hpr
  have hQ := protect_found_Q
    (fun x => (∀ c ∈ x, isBoundaryCh c = false) ∧ (∃ c ∈ x, isWsCh c = false))
    t g hg pr.1 h1
  exact ⟨hQ.1, hQ.2, h2⟩

theorem scriptOk_pat_ne {sc : List (List Char × List Char)} (hsc : ScriptOk sc)
    {pr : List Char × List Char} (hpr : pr ∈ sc) : pr.1 ≠ [] := by
  obtain ⟨_, ⟨c, hc, _⟩, _⟩ := hsc pr hpr
  intro he
  rw [he] at hc
  simp at hc

theorem scriptOk_rep_ne {sc : List (List Char × List Char)} (hsc : ScriptOk sc)
    {pr : List Char × List Char} (hpr : pr ∈ sc) : pr.2 ≠ [] := by
  obtain ⟨_, _, i, hi⟩ := hsc pr hpr
  rw [hi]
  exact phName_ne_nil i

theorem scriptOk_rep_bnd {sc : List (List Char × List Char)} (hsc : ScriptOk sc)
    {pr : List Char × List Char} (hpr : pr ∈ sc) :
    ∀ c ∈ pr.2, isBoundaryCh c = false := by
  obtain ⟨_, _, i, hi⟩ := hsc pr hpr
  rw [hi]
  exact phName_not_boundary i

theorem scriptOk_rep_nonws {sc : List (List Char × List Char)} (hsc : ScriptOk sc)
    {pr : List Char × List Char} (hpr : pr ∈ sc) :
    ∃ c ∈ pr.2, isWsCh c = false := by
  obtain ⟨_, _, i, hi⟩ := hsc pr hpr
  rw [hi]
  exact phName_has_nonws i

theorem scriptOk_tail {p : List Char × List Char}
    {sc : List (List Char × List Char)} (hsc : ScriptOk (p :: sc)) :
    ScriptOk sc :=
  fun pr hpr => hsc pr (List.mem_cons_of_mem _ hpr)

/-- A replacement whose pattern has no boundary character leaves an
all-boundary string unchanged. -/
theorem repl_id_of_boundary (pat rep : List Char)
    (hpb : ∀ c ∈ pat, isBoundaryCh c = false) (g : List Char)
    (hg : ∀ c ∈ g, isBoundaryCh c = true) :
    replaceAllPos pat rep g = g := by
  have h := repl_skip_append pat rep g [] (fun c hc hcp => by
    have h1 := hg c hc
    rw [hpb c hcp] at h1
    simp at h1)
  rw [List.append_nil] at h
  rw [h, replaceAllPos_nil, List.append_nil]

theorem applyScript_id_of_boundary :
    ∀ sc : List (List Char × List Char), ScriptOk sc →
      ∀ g : List Char, (∀ c ∈ g, isBoundaryCh c = true) →
        applyScript sc g = g := by
  intro sc
  induction sc with
  | nil => intro _ g _; rfl
  | cons p sc' ih =>
    intro hsc g hg
    rw [applyScript_cons,
      replaceAll_of_ne_nil _ _ (scriptOk_pat_ne hsc (List.mem_cons_self _ _)),
      repl_id_of_boundary p.1 p.2
        ((hsc p (List.mem_cons_self _ _)).1) g hg]
    exact ih (scriptOk_tail hsc) g hg

theorem applyScript_chars :
    ∀ sc : List (List Char × List Char), ∀ h : List Char, ∀ c : Char,
      c ∈ applyScript sc h → c ∈ h ∨ ∃ pr ∈ sc, c ∈ pr.2 := by
  intro sc
  induction sc with
  | nil => intro h c hc; exact Or.inl hc
  | cons p sc' ih =>
    intro h c hc
    rw [applyScript_cons] at hc
    rcases ih _ c hc with h1 | ⟨pr, hpr, hpr2⟩
    · unfold replaceAll at h1
      by_cases hp : p.1.isEmpty = true
      · rw [if_pos hp] at h1
        -- empty pattern: characters come from h or p.2
        have h2 : ∀ x : List Char, c ∈ emptyPatRepl p.2 x → c ∈ x ∨ c ∈ p.2 := by
          intro x
          induction x with
          | nil => intro hx; exact Or.inr hx
          | cons d ds ihx =>
            intro hx
            rcases List.mem_append.mp hx with hx1 | hx2
            · exact Or.inr hx1
            · rcases List.mem_cons.mp hx2 with rfl | hx3
              · exact Or.inl (List.mem_cons_self _ _)
              · rcases ihx hx3 with hy | hy
                · exact Or.inl (List.mem_cons_of_mem _ hy)
                · exact Or.inr hy
        rcases h2 h h1 with hy | hy
        · exact Or.inl hy
        · exact Or.inr ⟨p, List.mem_cons_self _ _, hy⟩
      · rw [if_neg hp] at h1
        rcases replaceAllPos_chars p.1 p.2 h.length h le_rfl c h1 with hy | hy
        · exact Or.inl hy
        · exact Or.inr ⟨p, List.mem_cons_self _ _, hy⟩
    · exact Or.inr ⟨pr, List.mem_cons_of_mem _ hpr, hpr2⟩

/-- A single replacement pass preserves whether the trimmed string is
empty, provided pattern and replacement each contain a non-whitespace
character. -/
theorem repl_keep (pat rep h : List Char)
    (hpw : ∃ c ∈ pat, isWsCh c = false)
    (hrw : ∃ c ∈ rep, isWsCh c = false) :
    (trim (replaceAllPos pat rep h)).isEmpty = (trim h).isEmpty := by
  by_cases hws : ∀ c ∈ h, isWsCh c = true
  · have hno : occursIn pat h = false := by
      rw [Bool.eq_false_iff]
      intro hc
      obtain ⟨cw, hcw, hcwf⟩ := hpw
      have h1 := occurs_chars ((occursIn_iff _ _).mp hc) cw hcw
      rw [hws cw h1] at hcwf
      simp at hcwf
    rw [replaceAllPos_no_match pat rep h.length h le_rfl hno]
  · push_neg at hws
    obtain ⟨cg, hcg1, hcg2⟩ := hws
    have hex : ∃ c ∈ h, isWsCh c = false := by
      refine ⟨cg, hcg1, ?_⟩
      cases hv : isWsCh cg
      · rfl
      · exact absurd hv hcg2
    obtain ⟨cr, hcr1, hcr2⟩ :=
      replaceAllPos_ex (fun c => isWsCh c = false) hrw h.length h le_rfl hex
    have h1 : (trim h).isEmpty = false := by
      rw [List.isEmpty_eq_false]
      intro he
      obtain ⟨cw, hcw1, hcw2⟩ := hex
      rw [(trim_empty_iff h).mp he cw hcw1] at hcw2
      simp at hcw2
    have h2 : (trim (replaceAllPos pat rep h)).isEmpty = false := by
      rw [List.isEmpty_eq_false]
      intro he
      rw [(trim_empty_iff _).mp he cr hcr1] at hcr2
      simp at hcr2
    rw [h1, h2]

theorem applyScript_keep :
    ∀ sc : List (List Char × List Char), ScriptOk sc → ∀ h : List Char,
      (trim (applyScript sc h)).isEmpty = (trim h).isEmpty := by
  intro sc
  induction sc with
  | nil => intro _ h; rfl
  | cons p sc' ih =>
    intro hsc h
    rw [applyScript_cons,
      replaceAll_of_ne_nil _ _ (scriptOk_pat_ne hsc (List.mem_cons_self _ _)),
      ih (scriptOk_tail hsc) _,
      repl_keep p.1 p.2 h ((hsc p (List.mem_cons_self _ _)).2.1)
        (scriptOk_rep_nonws hsc (List.mem_cons_self _ _))]

theorem map_ext {α β : Type} (f g : α → β) :
    ∀ l : List α, (∀ a ∈ l, f a = g a) → l.map f = l.map g := by
  intro l
  induction l with
  | nil => intro _; rfl
  | cons a as ih =>
    intro h
    simp only [List.map_cons]
    rw [h a (List.mem_cons_self _ _),
      ih (fun x hx => h x (List.mem_cons_of_mem _ hx))]

/-- One replacement pass commutes with chunking: the chunks of the
rewritten text are the per-run rewrites of the original chunks. -/
theorem chunkBy_repl (pat rep x : List Char) (hpat : pat ≠ [])
    (hpb : ∀ c ∈ pat, isBoundaryCh c = false) (hrep : rep ≠ [])
    (hrb : ∀ c ∈ rep, isBoundaryCh c = false) :
    chunkBy isBoundaryCh (replaceAllPos pat rep x) =
      (chunkBy isBoundaryCh x).map (runTr pat rep) := by
  have hok := chunksOk_chunkBy isBoundaryCh x.length x le_rfl
  have hx : (chunkBy isBoundaryCh x).flatten = x :=
    chunkBy_flatten _ x.length x le_rfl
  have h1 : replaceAllPos pat rep x =
      ((chunkBy isBoundaryCh x).map (runTr pat rep)).flatten := by
    conv_lhs => rw [← hx]
    exact repl_flatten pat rep hpat hpb _ hok
  rw [h1]
  exact chunkBy_flatten_of_ok _ _ (chunksOk_map_runTr pat rep hrep hrb _ hok)

/-- A whole substitution script commutes with chunking. -/
theorem chunkBy_applyScript :
    ∀ sc : List (List Char × List Char), ScriptOk sc → ∀ x : List Char,
      chunkBy isBoundaryCh (applyScript sc x) =
        (chunkBy isBoundaryCh x).map (applyScript sc) := by
  intro sc
  induction sc with
  | nil =>
    intro _ x
    show chunkBy isBoundaryCh x = (chunkBy isBoundaryCh x).map (fun g => g)
    rw [map_ext (fun g => g) id _ (fun a _ => rfl), List.map_id]
  | cons p sc' ih =>
    intro hsc x
    have hpm := List.mem_cons_self p sc'
    have hpat := scriptOk_pat_ne hsc hpm
    have hpb := (hsc p hpm).1
    have hrep := scriptOk_rep_ne hsc hpm
    have hrb := scriptOk_rep_bnd hsc hpm
    rw [applyScript_cons, ih (scriptOk_tail hsc) _,
      replaceAll_of_ne_nil _ _ hpat,
      chunkBy_repl p.1 p.2 x hpat hpb hrep hrb, List.map_map]
    apply map_ext
    intro g hg
    obtain ⟨hne, hhom⟩ := chunksOk_mem (chunksOk_chunkBy isBoundaryCh x.length x le_rfl) g hg
    show applyScript sc' (runTr p.1 p.2 g) = applyScript (p :: sc') g
    cases hval : runVal isBoundaryCh g with
    | true =>
      have hbnd : ∀ c ∈ g, isBoundaryCh c = true := by
        intro c hc
        rw [hhom c hc, hval]
      rw [runTr_eq_self hval, applyScript_cons,
        replaceAll_of_ne_nil _ _ hpat,
        repl_id_of_boundary p.1 p.2 hpb g hbnd]
    | false =>
      rw [runTr_eq_repl hval, applyScript_cons,
        replaceAll_of_ne_nil _ _ hpat]

end ScriptLemmas

section AlignForall2

theorem mergeFrags_cons (acc : List (List Char)) (f : List Char)
    (rest : List (List Char)) :
    mergeFrags acc (f :: rest) =
      if isPunctRun f then mergeFrags (addPunct acc f) rest
      else mergeFrags (acc ++ [f]) rest := rfl

theorem forall2_app {α β : Type} {R : α → β → Prop} :
    ∀ {l1 : List α} {l2 : List β} {u1 : List α} {u2 : List β},
      List.Forall₂ R l1 l2 → List.Forall₂ R u1 u2 →
      List.Forall₂ R (l1 ++ u1) (l2 ++ u2) := by
  intro l1 l2 u1 u2 h1 h2
  induction h1 with
  | nil => exact h2
  | cons h h' ih => exact List.Forall₂.cons h ih

theorem forall2_map_same {α β : Type} (R : β → β → Prop) (f g : α → β) :
    ∀ l : List α, (∀ a ∈ l, R (f a) (g a)) →
      List.Forall₂ R (l.map f) (l.map g) := by
  intro l
  induction l with
  | nil => intro _; exact List.Forall₂.nil
  | cons a as ih =>
    intro h
    exact List.Forall₂.cons (h a (List.mem_cons_self _ _))
      (ih (fun x hx => h x (List.mem_cons_of_mem _ hx)))

theorem filter_map_comm {α : Type} (T : α → α) (p : α → Bool) :
    ∀ l : List α, (∀ a ∈ l, p (T a) = p a) →
      (l.map T).filter p = (l.filter p).map T := by
  intro l
  induction l with
  | nil => intro _; rfl
  | cons a as ih =>
    intro h
    have hTa := h a (List.mem_cons_self _ _)
    have hrest := ih (fun x hx => h x (List.mem_cons_of_mem _ hx))
    by_cases hp : p a = true
    · rw [List.map_cons, List.filter_cons, List.filter_cons, hTa,
        if_pos hp, if_pos hp, List.map_cons, hrest]
    · rw [List.map_cons, List.filter_cons, List.filter_cons, hTa,
        if_neg hp, if_neg hp, hrest]

theorem addPunct_forall2 (T : List Char → List Char) (f : List Char) :
    ∀ acc acc' : List (List Char),
      List.Forall₂ (fun s s' => ∃ b P : List Char,
        s = trim b ++ P ∧ s' = trim (T b) ++ P) acc acc' →
      List.Forall₂ (fun s s' => ∃ b P : List Char,
        s = trim b ++ P ∧ s' = trim (T b) ++ P)
        (addPunct acc f) (addPunct acc' f) := by
  intro acc acc' hacc
  induction hacc with
  | nil => exact List.Forall₂.nil
  | @cons s s' rest rest' hR hRest ih =>
    cases hRest with
    | nil =>
      show List.Forall₂ _ [s ++ f] [s' ++ f]
      obtain ⟨b, P, hs, hs'⟩ := hR
      refine List.Forall₂.cons ⟨b, P ++ f, ?_, ?_⟩ List.Forall₂.nil
      · rw [hs, List.append_assoc]
      · rw [hs', List.append_assoc]
    | @cons y y' ys ys' hy hys =>
      show List.Forall₂ _ (s :: addPunct (y :: ys) f)
        (s' :: addPunct (y' :: ys') f)
      exact List.Forall₂.cons hR ih

/-- The merge loop acting on two pointwise-related fragment streams
(same punctuation flags, identical punctuation fragments, bodies
related by `T`) produces pointwise-related sentences: each sentence is
a trimmed body followed by the same punctuation tail. -/
theorem mergeFrags_forall2 (T : List Char → List Char) :
    ∀ fs fs' : List (List Char),
      List.Forall₂ (fun f f' => (∃ b, f = trim b ∧ f' = trim (T b)) ∧
        isPunctRun f' = isPunctRun f ∧ (isPunctRun f = true → f' = f)) fs fs' →
      ∀ acc acc' : List (List Char),
      List.Forall₂ (fun s s' => ∃ b P : List Char,
        s = trim b ++ P ∧ s' = trim (T b) ++ P) acc acc' →
      List.Forall₂ (fun s s' => ∃ b P : List Char,
        s = trim b ++ P ∧ s' = trim (T b) ++ P)
        (mergeFrags acc fs) (mergeFrags acc' fs') := by
  intro fs fs' hff
  induction hff with
  | nil => intro acc acc' hacc; exact hacc
  | @cons f f' fs1 fs2 h1 h2 ih =>
    intro acc acc' hacc
    obtain ⟨⟨b, hfb, hfb'⟩, hflag, hpunct⟩ := h1
    rw [mergeFrags_cons, mergeFrags_cons]
    by_cases hp : isPunctRun f = true
    · rw [if_pos hp, if_pos (by rw [hflag]; exact hp), hpunct hp]
      exact ih _ _ (addPunct_forall2 T f acc acc' hacc)
    · have hp1 : isPunctRun f = false := by
        cases hv : isPunctRun f
        · rfl
        · exact absurd hv hp
      rw [if_neg hp, if_neg (by rw [hflag, hp1]; simp)]
      refine ih _ _ (forall2_app hacc ?_)
      refine List.Forall₂.cons ⟨b, [], ?_, ?_⟩ List.Forall₂.nil
      · rw [hfb, List.append_nil]
      · rw [hfb', List.append_nil]

/-- Sentence assembly from a well-formed run list and from its image
under a run transformation `T` that preserves trim-emptiness, fixes
boundary runs and keeps rewritten runs boundary-free, yields
index-aligned sentences: the i-th output sentences share their
punctuation tail and their bodies are related by `T`. -/
theorem sentences_forall2 (T : List Char → List Char)
    (rs : List (List Char)) (hok : ChunksOk isBoundaryCh rs)
    (hkeep : ∀ g : List Char, (trim (T g)).isEmpty = (trim g).isEmpty)
    (hbid : ∀ g ∈ rs, runVal isBoundaryCh g = true → T g = g)
    (hnb : ∀ g ∈ rs, runVal isBoundaryCh g = false →
      ∀ c ∈ T g, isBoundaryCh c = false) :
    List.Forall₂ (fun s s' => ∃ b P : List Char,
      s = trim b ++ P ∧ s' = trim (T b) ++ P)
      ((mergeFrags [] ((rs.filter (fun s => !(trim s).isEmpty)).map trim)).filter
        (fun s => !s.isEmpty))
      ((mergeFrags [] (((rs.map T).filter (fun s => !(trim s).isEmpty)).map trim)).filter
        (fun s => !s.isEmpty)) := by
  have hfil : (rs.map T).filter (fun s => !(trim s).isEmpty) =
      (rs.filter (fun s => !(trim s).isEmpty)).map T := by
    refine filter_map_comm T _ rs ?_
    intro a _
    show (!(trim (T a)).isEmpty) = (!(trim a).isEmpty)
    rw [hkeep]
  rw [hfil, List.map_map]
  have hfr : List.Forall₂ (fun f f' => (∃ b, f = trim b ∧ f' = trim (T b)) ∧
      isPunctRun f' = isPunctRun f ∧ (isPunctRun f = true → f' = f))
      ((rs.filter (fun s => !(trim s).isEmpty)).map trim)
      ((rs.filter (fun s => !(trim s).isEmpty)).map (trim ∘ T)) := by
    refine forall2_map_same _ _ _ _ ?_
    intro g hg
    simp only [Function.comp_apply]
    have hgmem : g ∈ rs := List.mem_of_mem_filter hg
    have hgk := List.of_mem_filter hg
    have htge : trim g ≠ [] := by
      simp only [Bool.not_eq_true', List.isEmpty_eq_false] at hgk
      exact hgk
    obtain ⟨hgne, hghom⟩ := chunksOk_mem hok g hgmem
    have hpfacts : runVal isBoundaryCh g = false →
        isPunctRun (trim g) = false ∧ isPunctRun (trim (T g)) = false := by
      intro hval
      have htTe : trim (T g) ≠ [] := by
        rw [← List.isEmpty_eq_false, hkeep g, List.isEmpty_eq_false]
        exact htge
      constructor
      · refine isPunctRun_false_of_nonboundary htge ?_
        intro c hc
        rw [hghom c (mem_trim hc), hval]
      · refine isPunctRun_false_of_nonboundary htTe ?_
        intro c hc
        exact hnb g hgmem hval c (mem_trim hc)
    refine ⟨⟨g, rfl, rfl⟩, ?_, ?_⟩
    · cases hval : runVal isBoundaryCh g with
      | true => rw [hbid g hgmem hval]
      | false =>
        obtain ⟨hq1, hq2⟩ := hpfacts hval
        rw [hq1, hq2]
    · intro hpt
      cases hval : runVal isBoundaryCh g with
      | true => rw [hbid g hgmem hval]
      | false =>
        obtain ⟨hq1, _⟩ := hpfacts hval
        rw [hq1] at hpt
        simp at hpt
  have hfsne : ∀ f ∈ (rs.filter (fun s => !(trim s).isEmpty)).map trim, f ≠ [] := by
    intro f hf
    obtain ⟨g, hg, rfl⟩ := List.mem_map.mp hf
    have h2 := List.of_mem_filter hg
    simp only [Bool.not_eq_true', List.isEmpty_eq_false] at h2
    exact h2
  have hfsne' : ∀ f ∈ (rs.filter (fun s => !(trim s).isEmpty)).map (trim ∘ T), f ≠ [] := by
    intro f hf
    obtain ⟨g, hg, rfl⟩ := List.mem_map.mp hf
    have h2 := List.of_mem_filter hg
    simp only [Bool.not_eq_true', List.isEmpty_eq_false] at h2
    show trim (T g) ≠ []
    rw [← List.isEmpty_eq_false, hkeep, List.isEmpty_eq_false]
    exact h2
  have hM := mergeFrags_ne _ [] hfsne (by simp)
  have hM' := mergeFrags_ne _ [] hfsne' (by simp)
  have hfe1 : (mergeFrags []
      ((rs.filter (fun s => !(trim s).isEmpty)).map trim)).filter
      (fun s => !s.isEmpty) =
      mergeFrags [] ((rs.filter (fun s => !(trim s).isEmpty)).map trim) := by
    refine List.filter_eq_self.mpr ?_
    intro a ha
    simp only [Bool.not_eq_true', List.isEmpty_eq_false]
    exact hM a ha
  have hfe2 : (mergeFrags []
      ((rs.filter (fun s => !(trim s).isEmpty)).map (trim ∘ T))).filter
      (fun s => !s.isEmpty) =
      mergeFrags [] ((rs.filter (fun s => !(trim s).isEmpty)).map (trim ∘ T)) := by
    refine List.filter_eq_self.mpr ?_
    intro a ha
    simp only [Bool.not_eq_true', List.isEmpty_eq_false]
    exact hM' a ha
  rw [hfe1, hfe2]
  exact mergeFrags_forall2 T _ _ hfr [] [] List.Forall₂.nil

end AlignForall2

section ClaimSeven

/-- C7 counterexample: a vocabulary term containing the boundary
character 。 merges two sentences into one, so the two segmentations
have different lengths. -/
theorem c7_counterexample :
    (splitIntoSentences "あ。い".toList).length = 2 ∧
    (splitIntoSentences (protectProperNouns "あ。い".toList
      [("c".toList, [("あ。い".toList,
        ⟨"X".toList, []⟩)])]).protectedText).length = 1 := by
  constructor
  · decide
  · decide

/-- C7 (amended): for every text and every vocabulary in which each
source term contains no sentence-boundary character (。！？ or newline)
and at least one non-whitespace character, segmenting the protected
text yields the same sentence count as segmenting the original text,
and the sentences align index-by-index: the i-th protected sentence is
the i-th original sentence's body with the protect substitution script
applied (trimmed), followed by the identical punctuation tail.
Unrestricted, alignment can fail: a term containing 。 removes a
sentence boundary. -/
theorem c7_segmentation_alignment :
    ∀ (t : List Char) (g : Glossary),
      (∀ cat ∈ g, ∀ pr ∈ cat.2, (∀ c ∈ pr.1, isBoundaryCh c = false) ∧
        (∃ c ∈ pr.1, isWsCh c = false)) →
      (splitIntoSentences (protectProperNouns t g).protectedText).length =
        (splitIntoSentences t).length ∧
      List.Forall₂ (fun s s' => ∃ b P : List Char, s = trim b ++ P ∧
          s' = trim (applyScript (protectScript t g) b) ++ P)
        (splitIntoSentences t)
        (splitIntoSentences (protectProperNouns t g).protectedText) := by
  intro t g hg
  have hsc : ScriptOk (protectScript t g) := protectScript_ok t g hg
  have hok : ChunksOk isBoundaryCh (chunkBy isBoundaryCh t) :=
    chunksOk_chunkBy isBoundaryCh t.length t (Nat.le_refl _)
  have hchunk : chunkBy isBoundaryCh (protectProperNouns t g).protectedText =
      (chunkBy isBoundaryCh t).map (applyScript (protectScript t g)) := by
    rw [protect_script_inv]
    exact chunkBy_applyScript _ hsc t
  have hbid : ∀ gr ∈ chunkBy isBoundaryCh t, runVal isBoundaryCh gr = true →
      applyScript (protectScript t g) gr = gr := by
    intro gr hgr hval
    obtain ⟨hne, hhom⟩ := chunksOk_mem hok gr hgr
    exact applyScript_id_of_boundary _ hsc gr (fun c hc => by
      rw [hhom c hc, hval])
  have hnb : ∀ gr ∈ chunkBy isBoundaryCh t, runVal isBoundaryCh gr = false →
      ∀ c ∈ applyScript (protectScript t g) gr, isBoundaryCh c = false := by
    intro gr hgr hval c hc
    obtain ⟨hne, hhom⟩ := chunksOk_mem hok gr hgr
    rcases applyScript_chars _ gr c hc with h1 | ⟨pr, hpr, hpr2⟩
    · rw [hhom c h1, hval]
    · exact scriptOk_rep_bnd hsc hpr c hpr2
  have hfor := sentences_forall2 (applyScript (protectScript t g)) _ hok
    (applyScript_keep _ hsc) hbid hnb
  have hsplit1 : splitIntoSentences t =
      (mergeFrags [] (((chunkBy isBoundaryCh t).filter
        (fun s => !(trim s).isEmpty)).map trim)).filter
        (fun s => !s.isEmpty) := rfl
  have hsplit2 : splitIntoSentences (protectProperNouns t g).protectedText =
      (mergeFrags [] ((((chunkBy isBoundaryCh t).map
        (applyScript (protectScript t g))).filter
        (fun s => !(trim s).isEmpty)).map trim)).filter
        (fun s => !s.isEmpty) := by
    show (mergeFrags [] (((chunkBy isBoundaryCh
        (protectProperNouns t g).protectedText).filter
        (fun s => !(trim s).isEmpty)).map trim)).filter
        (fun s => !s.isEmpty) = _
    rw [hchunk]
  have hfor2 : List.Forall₂ (fun s s' => ∃ b P : List Char,
      s = trim b ++ P ∧ s' = trim (applyScript (protectScript t g) b) ++ P)
      (splitIntoSentences t)
      (splitIntoSentences (protectProperNouns t g).protectedText) := by
    rw [hsplit1, hsplit2]
    exact hfor
  exact ⟨(List.Forall₂.length_eq hfor2).symm, hfor2⟩

/-- Witness for C7: a two-sentence text and a clean one-term
vocabulary. -/
theorem c7_segmentation_alignment_witness :
    (splitIntoSentences (protectProperNouns "あ。い".toList
      [("c".toList, [("い".toList, ⟨"X".toList, []⟩)])]).protectedText).length =
      (splitIntoSentences "あ。い".toList).length ∧
    List.Forall₂ (fun s s' => ∃ b P : List Char, s = trim b ++ P ∧
        s' = trim (applyScript (protectScript "あ。い".toList
          [("c".toList, [("い".toList, ⟨"X".toList, []⟩)])]) b) ++ P)
      (splitIntoSentences "あ。い".toList)
      (splitIntoSentences (protectProperNouns "あ。い".toList
        [("c".toList, [("い".toList, ⟨"X".toList, []⟩)])]).protectedText) :=
  c7_segmentation_alignment "あ。い".toList
    [("c".toList, [("い".toList, ⟨"X".toList, []⟩)])] (by decide)

end ClaimSeven

end VisaApp
